import Mathlib

/-! golang-lrucache: a verification development.

Shallow embedding of `lrucache.go` (package `lrucache`) and proofs of its
properties.

Modelling conventions.

* `uint64` keys and values are natural numbers.  The cache performs no
  arithmetic on them, so no wrap-around occurs inside the cache; the test
  function `factorial` multiplies modulo `2^64`.
* `size` is a Go `int`, here an `Int` (it may be zero or negative).
* A `*list.Element` is an `Element`: `addr` is the identity of the node (its
  address) and `Value` the `*Entry` it carries, which the code never mutates.
* `container/list` is a list of elements, front at the head.  `PushFront`
  allocates a node at the fresh address `nextAddr`.
* The Go map `ResponsesLookup` is an association list with unique keys.
* The mutex and the log lines have no effect on a sequential run and are left
  out; the arguments the wrapped function is invoked with are recorded.
-/

namespace lrucache

/-! ## Data model -/

/-- Entry is a list entry: the key and the memoised value. -/
structure Entry where
  Key : Nat
  Value : Nat
deriving DecidableEq, Repr

/-- A node of the recency list as seen through a `*list.Element` pointer. -/
structure Element where
  addr : Nat
  Value : Entry
deriving DecidableEq, Repr

/-- The Go map `map[uint64]*list.Element`. -/
abbrev Lookup := List (Nat × Element)

/-- Map read `m[k]` with the comma-ok idiom: `none` when `k` is absent. -/
def Lookup.get : Lookup → Nat → Option Element
  | [], _ => none
  | (k', e) :: m, k => if k' = k then some e else Lookup.get m k

/-- The builtin `delete(m, k)`. -/
def Lookup.delete (m : Lookup) (k : Nat) : Lookup :=
  m.filter (fun p => decide (p.1 ≠ k))

/-- Map write `m[k] = e` (overwrites a previous binding of `k`). -/
def Lookup.assign (m : Lookup) (k : Nat) (e : Element) : Lookup :=
  (k, e) :: Lookup.delete m k

/-- The keys bound in the map. -/
def Lookup.keys (m : Lookup) : List Nat :=
  m.map Prod.fst

/-! ## container/list -/

/-- Len of `container/list`. -/
def Len (l : List Element) : Int :=
  (l.length : Int)

/-- Front of `container/list`: `none` is Go's `nil`. -/
def Front (l : List Element) : Option Element :=
  l.head?

/-- Back of `container/list`: `none` is Go's `nil`. -/
def Back (l : List Element) : Option Element :=
  l.getLast?

/-- The test `e.list == l`: the node `e` is linked in `l`. -/
def linked (l : List Element) (e : Element) : Bool :=
  l.any (fun x => decide (x.addr = e.addr))

/-- Remove of `container/list`: unlinks `e`; nothing happens when `e` is not
an element of `l`. -/
def Remove (l : List Element) (e : Element) : List Element :=
  l.filter (fun x => decide (x.addr ≠ e.addr))

/-- MoveToFront of `container/list`: nothing happens when `e` is not an
element of `l`. -/
def MoveToFront (l : List Element) (e : Element) : List Element :=
  if linked l e then e :: Remove l e else l

/-- PushFront of `container/list`: links a new node, allocated at `addr`, in
front of `l`, and returns it with the new list. -/
def PushFront (l : List Element) (v : Entry) (addr : Nat) : Element × List Element :=
  (⟨addr, v⟩, ⟨addr, v⟩ :: l)

/-! ## The cache -/

/-- Cache represents an instance of an LRU cache.  `nextAddr` is the state of
the allocator: every node allocated so far has an address below it. -/
structure Cache where
  function : Nat → Nat
  ResponsesList : List Element
  ResponsesLookup : Lookup
  size : Int
  nextAddr : Nat

/-- New returns a new Cache instance. -/
def New (size : Int) (f : Nat → Nat) : Cache :=
  { function := f
    ResponsesList := []
    ResponsesLookup := []
    size := size
    nextAddr := 0 }

/-- What one `Call` does: the returned value, the cache afterwards, and the
arguments the wrapped function was invoked with, in order. -/
structure CallResult where
  ret : Nat
  cache : Cache
  invoked : List Nat

/-- Lines 74-83 of `Call`: when the list is full, the back element (if any) is
deleted from the map under its own key and removed from the list. -/
def evict (c : Cache) : Cache :=
  if Len c.ResponsesList ≥ c.size then
    match Back c.ResponsesList with
    | some el =>
      { c with
        ResponsesLookup := Lookup.delete c.ResponsesLookup el.Value.Key
        ResponsesList := Remove c.ResponsesList el }
    | none => c
  else c

/-- Lines 85-93 of `Call`: the entry `(a, resp)` is pushed at the front of the
list and the new element is stored in the map under the entry's key. -/
def addEntry (c : Cache) (a resp : Nat) : Cache :=
  let e : Entry := { Key := a, Value := resp }
  let p := PushFront c.ResponsesList e c.nextAddr
  { c with
    ResponsesList := p.2
    ResponsesLookup := Lookup.assign c.ResponsesLookup e.Key p.1
    nextAddr := c.nextAddr + 1 }

/-- Call checks the lookup table to see if there is already a cached response
for this input.  If there is, the entry is moved to the front of the list.
If not, the function is called, the least recently used entry is evicted when
the cache is full, and the new entry is inserted in the front. -/
def Call (c : Cache) (a : Nat) : CallResult :=
  match Lookup.get c.ResponsesLookup a with
  | some el =>
    { ret := el.Value.Value
      cache := { c with ResponsesList := MoveToFront c.ResponsesList el }
      invoked := [] }
  | none =>
    let resp := c.function a
    { ret := resp
      cache := addEntry (evict c) a resp
      invoked := [a] }

/-- Outcome of a `Call` whose wrapped function may panic: `ret = none` means
that the panic reached the caller; `cache` is the state left behind. -/
structure PanicResult where
  ret : Option Nat
  cache : Cache
  invoked : List Nat

/-- Call, for a wrapped function that panics on the arguments in `panics` and
returns `c.function a` on the others.  Nothing in `Call` recovers, so a panic
at line 72 leaves `Call` at once with the state reached so far. -/
def CallPanic (panics : Nat → Bool) (c : Cache) (a : Nat) : PanicResult :=
  match Lookup.get c.ResponsesLookup a with
  | some el =>
    { ret := some el.Value.Value
      cache := { c with ResponsesList := MoveToFront c.ResponsesList el }
      invoked := [] }
  | none =>
    if panics a then
      { ret := none, cache := c, invoked := [a] }
    else
      let resp := c.function a
      { ret := some resp
        cache := addEntry (evict c) a resp
        invoked := [a] }

/-- A sequential series of `Call` operations, one per key, in order. -/
def run (c : Cache) (ks : List Nat) : Cache :=
  ks.foldl (fun s k => (Call s k).cache) c

/-- The keys on which the calls of a sequential series missed, in order: the
arguments the wrapped function was invoked with. -/
def misses (c : Cache) : List Nat → List Nat
  | [] => []
  | k :: ks => (Call c k).invoked ++ misses (Call c k).cache ks

/-- The keys of the entries of the recency list, front to back. -/
def listKeys (c : Cache) : List Nat :=
  c.ResponsesList.map (fun e => e.Value.Key)

/-- The loop of the test function `factorial`: `for i <= n { result *= i; i++ }`
on `uint64`, run for at most `fuel` iterations. -/
def factorialLoop (n : Nat) : Nat → Nat → Nat → Nat
  | 0, _, result => result
  | fuel + 1, i, result =>
    if i ≤ n then factorialLoop n fuel (i + 1) (result * i % 2 ^ 64) else result

/-- The test function of `lrucache_test.go`: the factorial modulo `2^64`, and
`0` at `0`.  The loop starts at `i = 1` and makes `n` iterations. -/
def factorial (n : Nat) : Nat :=
  if n > 0 then factorialLoop n n 1 1 else 0

/-! ## Consistency of a cache state -/

/-- Well-formedness of the representation: the nodes linked in the list are
pairwise distinct, they were all allocated before `nextAddr`, and the map
binds every key at most once. -/
def WellFormed (c : Cache) : Prop :=
  (c.ResponsesList.map Element.addr).Nodup ∧
  (∀ e ∈ c.ResponsesList, e.addr < c.nextAddr) ∧
  (Lookup.keys c.ResponsesLookup).Nodup

/-- The bijection between index and recency list: every binding of the index
references an element linked in the list whose entry carries the bound key,
and every element of the list is found in the index under its entry's key. -/
def Bijection (c : Cache) : Prop :=
  (∀ p ∈ c.ResponsesLookup, p.2 ∈ c.ResponsesList ∧ p.2.Value.Key = p.1) ∧
  (∀ e ∈ c.ResponsesList, Lookup.get c.ResponsesLookup e.Value.Key = some e)

/-- A consistent cache state. -/
def Consistent (c : Cache) : Prop :=
  WellFormed c ∧ Bijection c

instance (c : Cache) : Decidable (WellFormed c) := by
  unfold WellFormed; infer_instance

instance (c : Cache) : Decidable (Bijection c) := by
  unfold Bijection; infer_instance

instance (c : Cache) : Decidable (Consistent c) := by
  unfold Consistent; infer_instance

/-- Consistency spelled out with map reads instead of map bindings. -/
structure Inv (c : Cache) : Prop where
  addr_nodup : (c.ResponsesList.map Element.addr).Nodup
  addr_lt : ∀ e ∈ c.ResponsesList, e.addr < c.nextAddr
  keys_nodup : (Lookup.keys c.ResponsesLookup).Nodup
  get_linked : ∀ k e, Lookup.get c.ResponsesLookup k = some e →
    e ∈ c.ResponsesList ∧ e.Value.Key = k
  linked_get : ∀ e ∈ c.ResponsesList, Lookup.get c.ResponsesLookup e.Value.Key = some e

/-- Every element bound in the index carries the bound key together with the
value of the wrapped function at that key. -/
def Memo (c : Cache) : Prop :=
  ∀ k e, Lookup.get c.ResponsesLookup k = some e →
    e.Value.Key = k ∧ e.Value.Value = c.function k

/-- The number of distinct keys on which the calls of a sequential series
missed. -/
def distinctMisses (c : Cache) (ks : List Nat) : Nat :=
  (misses c ks).dedup.length

/-! ## The mutex -/

/-- The steps of `Call` that touch the mutex, the recency list, the index or
the wrapped function. -/
inductive Event where
  | lock
  | unlock
  | readLookup
  | moveToFront
  | invoke
  | readLen
  | readBack
  | deleteLookup
  | removeList
  | pushFront
  | writeLookup
deriving DecidableEq, Repr

/-- Whether a step reads or writes `ResponsesList` or `ResponsesLookup`. -/
def Event.access : Event → Bool
  | Event.lock => false
  | Event.unlock => false
  | Event.invoke => false
  | _ => true

/-- The steps `Call` takes, in program order: the map read of line 60; on a
hit `Lock`, `MoveToFront`, `Unlock` (lines 63-65); on a miss the function call
(line 72), `Len` (line 74), when the list is full `Back` (line 76) and, for a
back element, `Lock`, `delete`, `Remove`, `Unlock` (lines 78-81), and at last
`Lock`, `PushFront`, the map write, `Unlock` (lines 90-93). -/
def CallTrace (c : Cache) (a : Nat) : List Event :=
  Event.readLookup ::
  match Lookup.get c.ResponsesLookup a with
  | some _ => [Event.lock, Event.moveToFront, Event.unlock]
  | none =>
    [Event.invoke, Event.readLen] ++
    (if Len c.ResponsesList ≥ c.size then
      Event.readBack ::
      match Back c.ResponsesList with
      | some _ => [Event.lock, Event.deleteLookup, Event.removeList, Event.unlock]
      | none => []
    else []) ++
    [Event.lock, Event.pushFront, Event.writeLookup, Event.unlock]

/-- The accesses to list and index that a sequence of steps makes while the
mutex is not held; `held` tells whether it is held at the start. -/
def unguarded : Bool → List Event → List Event
  | _, [] => []
  | held, e :: t =>
    if e = Event.lock then unguarded true t
    else if e = Event.unlock then unguarded false t
    else if e.access && !held then e :: unguarded held t
    else unguarded held t

/-! ## Observations of a run and the LRU reference -/

/-- The values returned by the calls of a sequential series, in order. -/
def returns (c : Cache) : List Nat → List Nat
  | [] => []
  | k :: ks => (Call c k).ret :: returns (Call c k).cache ks

/-- The hit/miss pattern of a sequential series: for each call, whether its
key was found in the index. -/
def hitPattern (c : Cache) : List Nat → List Bool
  | [] => []
  | k :: ks => (Lookup.get c.ResponsesLookup k).isSome :: hitPattern (Call c k).cache ks

/-- Keeps only the first occurrence of each key of a list. -/
def firstOccurrences : List Nat → List Nat
  | [] => []
  | k :: ks => k :: (firstOccurrences ks).filter (fun q => decide (q ≠ k))

/-- The LRU reference of the specification: the first `c` elements of the
list obtained by reversing the called keys and keeping only the first
occurrence of each key. -/
def lruReference (c : Nat) (ks : List Nat) : List Nat :=
  (firstOccurrences ks.reverse).take c

/-! ## The map operations -/

theorem get_mem {m : Lookup} {k : Nat} {e : Element} (h : Lookup.get m k = some e) :
    (k, e) ∈ m := by
  induction m with
  | nil => simp [Lookup.get] at h
  | cons p m ih =>
    obtain ⟨k', e'⟩ := p
    by_cases hk : k' = k
    · simp [Lookup.get, hk] at h
      simp [hk, h]
    · simp only [Lookup.get, hk, if_false] at h
      exact List.mem_cons_of_mem _ (ih h)

theorem mem_get {m : Lookup} {k : Nat} {e : Element} (hn : (Lookup.keys m).Nodup)
    (h : (k, e) ∈ m) : Lookup.get m k = some e := by
  induction m with
  | nil => simp at h
  | cons p m ih =>
    obtain ⟨k', e'⟩ := p
    simp only [Lookup.keys, List.map_cons, List.nodup_cons] at hn
    rcases List.mem_cons.mp h with h | h
    · cases h
      simp [Lookup.get]
    · have hne : k' ≠ k := by
        rintro rfl
        exact hn.1 (List.mem_map_of_mem Prod.fst h)
      simp only [Lookup.get, hne, if_false]
      exact ih hn.2 h

theorem get_none_iff {m : Lookup} {k : Nat} :
    Lookup.get m k = none ↔ k ∉ Lookup.keys m := by
  induction m with
  | nil => simp [Lookup.get, Lookup.keys]
  | cons p m ih =>
    obtain ⟨k', e'⟩ := p
    by_cases hk : k' = k
    · simp [Lookup.get, Lookup.keys, hk]
    · have hk' : ¬ k = k' := fun h => hk h.symm
      simp only [Lookup.get, hk, if_false, ih, Lookup.keys, List.map_cons, List.mem_cons,
        hk', false_or]

theorem mem_keys_iff {m : Lookup} {k : Nat} :
    k ∈ Lookup.keys m ↔ ∃ e, Lookup.get m k = some e := by
  constructor
  · intro h
    cases hg : Lookup.get m k with
    | none => exact absurd h (get_none_iff.mp hg)
    | some e => exact ⟨e, rfl⟩
  · rintro ⟨e, he⟩
    by_contra hk
    rw [get_none_iff.mpr hk] at he
    cases he

theorem get_delete_self (m : Lookup) (k : Nat) :
    Lookup.get (Lookup.delete m k) k = none := by
  rw [get_none_iff]
  simp [Lookup.keys, Lookup.delete]

theorem get_delete_ne (m : Lookup) {k k' : Nat} (h : k' ≠ k) :
    Lookup.get (Lookup.delete m k) k' = Lookup.get m k' := by
  induction m with
  | nil => rfl
  | cons p m ih =>
    obtain ⟨q, e⟩ := p
    by_cases hq : q = k
    · have hq' : ¬ q = k' := by rw [hq]; exact fun h' => h h'.symm
      have hd : Lookup.delete ((q, e) :: m) k = Lookup.delete m k := by
        simp [Lookup.delete, hq]
      rw [hd, ih]
      simp [Lookup.get, hq']
    · have hd : Lookup.delete ((q, e) :: m) k = (q, e) :: Lookup.delete m k := by
        simp [Lookup.delete, hq]
      rw [hd]
      simp only [Lookup.get, ih]

theorem get_assign_self (m : Lookup) (k : Nat) (e : Element) :
    Lookup.get (Lookup.assign m k e) k = some e := by
  simp [Lookup.assign, Lookup.get]

theorem get_assign_ne (m : Lookup) {k k' : Nat} (e : Element) (h : k' ≠ k) :
    Lookup.get (Lookup.assign m k e) k' = Lookup.get m k' := by
  have h' : ¬ k = k' := fun h' => h h'.symm
  simp only [Lookup.assign, Lookup.get, h', if_false]
  exact get_delete_ne m h

theorem keys_delete (m : Lookup) (k : Nat) :
    Lookup.keys (Lookup.delete m k) = (Lookup.keys m).filter (fun q => decide (q ≠ k)) := by
  simp only [Lookup.keys, Lookup.delete, List.filter_map]
  rfl

theorem keys_delete_nodup {m : Lookup} (k : Nat) (h : (Lookup.keys m).Nodup) :
    (Lookup.keys (Lookup.delete m k)).Nodup := by
  rw [keys_delete]
  exact h.filter _

theorem keys_assign_nodup {m : Lookup} (k : Nat) (e : Element) (h : (Lookup.keys m).Nodup) :
    (Lookup.keys (Lookup.assign m k e)).Nodup := by
  have hk : Lookup.keys (Lookup.assign m k e) = k :: Lookup.keys (Lookup.delete m k) := rfl
  rw [hk, List.nodup_cons]
  exact ⟨get_none_iff.mp (get_delete_self m k), keys_delete_nodup k h⟩

/-! ## The list operations -/

theorem mem_Remove {l : List Element} {e x : Element} :
    x ∈ Remove l e ↔ x ∈ l ∧ x.addr ≠ e.addr := by
  simp [Remove]

theorem linked_of_mem {l : List Element} {e : Element} (h : e ∈ l) : linked l e = true := by
  simp only [linked, List.any_eq_true, decide_eq_true_eq]
  exact ⟨e, h, rfl⟩

theorem addr_inj {l : List Element} (hn : (l.map Element.addr).Nodup) {x y : Element}
    (hx : x ∈ l) (hy : y ∈ l) (h : x.addr = y.addr) : x = y :=
  List.inj_on_of_nodup_map hn hx hy h

theorem Remove_nodup {l : List Element} (e : Element) (hn : (l.map Element.addr).Nodup) :
    ((Remove l e).map Element.addr).Nodup := by
  have hs : List.Sublist ((Remove l e).map Element.addr) (l.map Element.addr) :=
    List.Sublist.map _ (List.filter_sublist l)
  exact hn.sublist hs

theorem Remove_of_not_mem {l : List Element} {b : Element}
    (h : b.addr ∉ l.map Element.addr) : Remove l b = l := by
  simp only [Remove, List.filter_eq_self, decide_eq_true_eq]
  intro x hx hxb
  exact h (hxb ▸ List.mem_map_of_mem Element.addr hx)

theorem Remove_append_last {l : List Element} {b : Element}
    (hn : ((l ++ [b]).map Element.addr).Nodup) : Remove (l ++ [b]) b = l := by
  have hb : b.addr ∉ l.map Element.addr := by
    rw [List.map_append, List.nodup_append] at hn
    intro hmem
    exact hn.2.2 hmem (by simp)
  have h1 : Remove (l ++ [b]) b = Remove l b ++ Remove [b] b := by
    simp [Remove]
  have h2 : Remove [b] b = [] := by simp [Remove]
  rw [h1, h2, List.append_nil, Remove_of_not_mem hb]

theorem Remove_Back {l : List Element} {b : Element} (hn : (l.map Element.addr).Nodup)
    (hb : Back l = some b) : Remove l b = l.dropLast := by
  have hl : l = l.dropLast ++ [b] := (List.dropLast_append_getLast? b hb).symm
  have hn' : ((l.dropLast ++ [b]).map Element.addr).Nodup := by rw [← hl]; exact hn
  conv_lhs => rw [hl]
  exact Remove_append_last hn'

theorem MoveToFront_perm {l : List Element} {e : Element} (hn : (l.map Element.addr).Nodup)
    (he : e ∈ l) : List.Perm (MoveToFront l e) l := by
  have hE : Remove l e = l.erase e := by
    induction l with
    | nil => rfl
    | cons x l ih =>
      simp only [List.map_cons, List.nodup_cons] at hn
      by_cases hx : x = e
      · subst hx
        have : Remove (x :: l) x = Remove l x := by simp [Remove]
        rw [this, Remove_of_not_mem hn.1, List.erase_cons_head]
      · have hmem : e ∈ l := by
          rcases List.mem_cons.mp he with h | h
          · exact absurd h.symm hx
          · exact h
        have hax : x.addr ≠ e.addr := by
          intro h
          exact hn.1 (h ▸ List.mem_map_of_mem Element.addr hmem)
        have : Remove (x :: l) e = x :: Remove l e := by simp [Remove, hax]
        rw [this, ih hn.2 hmem, List.erase_cons_tail]
        simpa using hx
  rw [MoveToFront, linked_of_mem he, if_pos rfl, hE]
  exact (List.perm_cons_erase he).symm

/-! ## Preservation of consistency -/

theorem consistent_iff_inv (c : Cache) : Consistent c ↔ Inv c := by
  constructor
  · rintro ⟨⟨h1, h2, h3⟩, h4, h5⟩
    exact ⟨h1, h2, h3, fun k e hg => h4 (k, e) (get_mem hg), h5⟩
  · intro h
    exact ⟨⟨h.addr_nodup, h.addr_lt, h.keys_nodup⟩,
      fun p hp => h.get_linked p.1 p.2 (mem_get h.keys_nodup hp), h.linked_get⟩

theorem inv_New (size : Int) (f : Nat → Nat) : Inv (New size f) := by
  refine ⟨?_, ?_, ?_, ?_, ?_⟩ <;> simp [New, Lookup.keys, Lookup.get]

theorem inv_hit {c : Cache} (h : Inv c) {a : Nat} {el : Element}
    (hg : Lookup.get c.ResponsesLookup a = some el) :
    Inv { c with ResponsesList := MoveToFront c.ResponsesList el } := by
  have hel : el ∈ c.ResponsesList := (h.get_linked a el hg).1
  have hp := MoveToFront_perm h.addr_nodup hel
  refine ⟨?_, ?_, h.keys_nodup, ?_, ?_⟩
  · exact (List.Perm.nodup_iff (hp.map Element.addr)).mpr h.addr_nodup
  · intro e he
    exact h.addr_lt e (hp.mem_iff.mp he)
  · intro k e hk
    exact ⟨hp.mem_iff.mpr (h.get_linked k e hk).1, (h.get_linked k e hk).2⟩
  · intro e he
    exact h.linked_get e (hp.mem_iff.mp he)

theorem inv_evict {c : Cache} (h : Inv c) : Inv (evict c) := by
  unfold evict
  split
  · split
    · rename_i b hb
      have hbm : b ∈ c.ResponsesList := List.mem_of_getLast?_eq_some hb
      refine ⟨Remove_nodup b h.addr_nodup, ?_, keys_delete_nodup _ h.keys_nodup, ?_, ?_⟩
      · intro e he
        exact h.addr_lt e (mem_Remove.mp he).1
      · intro k e hk
        show e ∈ Remove c.ResponsesList b ∧ e.Value.Key = k
        have hk' : Lookup.get (Lookup.delete c.ResponsesLookup b.Value.Key) k = some e := hk
        have hne : k ≠ b.Value.Key := by
          rintro rfl
          rw [get_delete_self] at hk'
          cases hk'
        rw [get_delete_ne _ hne] at hk'
        obtain ⟨hm, hkey⟩ := h.get_linked k e hk'
        refine ⟨mem_Remove.mpr ⟨hm, ?_⟩, hkey⟩
        intro hab
        have : e = b := addr_inj h.addr_nodup hm hbm hab
        exact hne (by rw [← hkey, this])
      · intro e he
        show Lookup.get (Lookup.delete c.ResponsesLookup b.Value.Key) e.Value.Key = some e
        obtain ⟨hm, hab⟩ := mem_Remove.mp he
        have hne : e.Value.Key ≠ b.Value.Key := by
          intro hk
          have h1 := h.linked_get e hm
          have h2 := h.linked_get b hbm
          rw [hk, h2] at h1
          exact hab (by cases h1; rfl)
        rw [get_delete_ne _ hne]
        exact h.linked_get e hm
    · exact h
  · exact h

theorem get_evict_none {c : Cache} {a : Nat} (hg : Lookup.get c.ResponsesLookup a = none) :
    Lookup.get (evict c).ResponsesLookup a = none := by
  unfold evict
  split
  · split
    · show Lookup.get (Lookup.delete _ _) a = none
      rw [get_none_iff] at hg ⊢
      rw [keys_delete]
      exact fun hm => hg (List.mem_of_mem_filter hm)
    · exact hg
  · exact hg

theorem inv_addEntry {c : Cache} (h : Inv c) {a : Nat} (resp : Nat)
    (hg : Lookup.get c.ResponsesLookup a = none) : Inv (addEntry c a resp) := by
  have hfresh : c.nextAddr ∉ c.ResponsesList.map Element.addr := by
    intro hm
    obtain ⟨e, he, hae⟩ := List.mem_map.mp hm
    have := h.addr_lt e he
    omega
  refine ⟨?_, ?_, keys_assign_nodup _ _ h.keys_nodup, ?_, ?_⟩
  · show ((⟨c.nextAddr, ⟨a, resp⟩⟩ :: c.ResponsesList).map Element.addr).Nodup
    rw [List.map_cons, List.nodup_cons]
    exact ⟨hfresh, h.addr_nodup⟩
  · intro e he
    show e.addr < c.nextAddr + 1
    have he' : e ∈ (⟨c.nextAddr, ⟨a, resp⟩⟩ :: c.ResponsesList : List Element) := he
    rcases List.mem_cons.mp he' with rfl | hm
    · exact Nat.lt_succ_self _
    · exact Nat.lt_succ_of_lt (h.addr_lt e hm)
  · intro k e hk
    show e ∈ (⟨c.nextAddr, ⟨a, resp⟩⟩ :: c.ResponsesList : List Element) ∧ e.Value.Key = k
    have hk' : Lookup.get (Lookup.assign c.ResponsesLookup a ⟨c.nextAddr, ⟨a, resp⟩⟩) k
        = some e := hk
    by_cases hka : k = a
    · subst hka
      rw [get_assign_self] at hk'
      cases hk'
      exact ⟨List.mem_cons_self _ _, rfl⟩
    · rw [get_assign_ne _ _ hka] at hk'
      exact ⟨List.mem_cons_of_mem _ (h.get_linked k e hk').1, (h.get_linked k e hk').2⟩
  · intro e he
    show Lookup.get (Lookup.assign c.ResponsesLookup a ⟨c.nextAddr, ⟨a, resp⟩⟩) e.Value.Key
      = some e
    have he' : e ∈ (⟨c.nextAddr, ⟨a, resp⟩⟩ :: c.ResponsesList : List Element) := he
    rcases List.mem_cons.mp he' with rfl | hm
    · exact get_assign_self _ _ _
    · have hne : e.Value.Key ≠ a := by
        intro hk
        have := h.linked_get e hm
        rw [hk, hg] at this
        cases this
      rw [get_assign_ne _ _ hne]
      exact h.linked_get e hm

theorem inv_Call {c : Cache} (h : Inv c) (a : Nat) : Inv (Call c a).cache := by
  unfold Call
  split
  · rename_i el hg
    exact inv_hit h hg
  · rename_i hg
    exact inv_addEntry (inv_evict h) _ (get_evict_none hg)

theorem run_nil (c : Cache) : run c [] = c := rfl

theorem run_cons (c : Cache) (k : Nat) (ks : List Nat) :
    run c (k :: ks) = run (Call c k).cache ks := rfl

theorem run_append (c : Cache) (ks ks' : List Nat) :
    run c (ks ++ ks') = run (run c ks) ks' := by
  simp [run, List.foldl_append]

theorem run_snoc (c : Cache) (ks : List Nat) (k : Nat) :
    run c (ks ++ [k]) = (Call (run c ks) k).cache := by
  rw [run_append]; rfl

theorem inv_run {c : Cache} (h : Inv c) (ks : List Nat) : Inv (run c ks) := by
  induction ks generalizing c with
  | nil => exact h
  | cons k ks ih => exact ih (inv_Call h k)

theorem consistent_run (size : Int) (f : Nat → Nat) (ks : List Nat) :
    Consistent (run (New size f) ks) :=
  (consistent_iff_inv _).mpr (inv_run (inv_New size f) ks)

/-! ## Shape of the state after a call -/

theorem evict_function (c : Cache) : (evict c).function = c.function := by
  unfold evict; split
  · split <;> rfl
  · rfl

theorem evict_nextAddr (c : Cache) : (evict c).nextAddr = c.nextAddr := by
  unfold evict; split
  · split <;> rfl
  · rfl

theorem evict_size (c : Cache) : (evict c).size = c.size := by
  unfold evict; split
  · split <;> rfl
  · rfl

theorem Call_function (c : Cache) (a : Nat) : (Call c a).cache.function = c.function := by
  unfold Call; split
  · rfl
  · exact evict_function c

theorem Call_size (c : Cache) (a : Nat) : (Call c a).cache.size = c.size := by
  unfold Call; split
  · rfl
  · exact evict_size c

theorem run_function (c : Cache) (ks : List Nat) : (run c ks).function = c.function := by
  induction ks generalizing c with
  | nil => rfl
  | cons k ks ih => rw [run_cons, ih, Call_function]

theorem run_size (c : Cache) (ks : List Nat) : (run c ks).size = c.size := by
  induction ks generalizing c with
  | nil => rfl
  | cons k ks ih => rw [run_cons, ih, Call_size]

theorem evict_list {c : Cache} (h : Inv c) :
    (evict c).ResponsesList =
      if Len c.ResponsesList ≥ c.size then c.ResponsesList.dropLast else c.ResponsesList := by
  unfold evict
  split
  · split
    · rename_i b hb
      exact Remove_Back h.addr_nodup hb
    · rename_i hb
      have : c.ResponsesList = [] := List.getLast?_eq_none_iff.mp hb
      rw [this]; rfl
  · rfl

theorem Call_miss_list {c : Cache} (h : Inv c) {a : Nat}
    (hg : Lookup.get c.ResponsesLookup a = none) :
    (Call c a).cache.ResponsesList =
      ⟨c.nextAddr, ⟨a, c.function a⟩⟩ ::
        (if Len c.ResponsesList ≥ c.size then c.ResponsesList.dropLast
         else c.ResponsesList) := by
  have h1 : (Call c a).cache = addEntry (evict c) a (c.function a) := by
    unfold Call; rw [hg]
  rw [h1]
  show (⟨(evict c).nextAddr, ⟨a, c.function a⟩⟩ :: (evict c).ResponsesList : List Element) = _
  rw [evict_nextAddr, evict_list h]

theorem Call_hit_cache {c : Cache} {a : Nat} {el : Element}
    (hg : Lookup.get c.ResponsesLookup a = some el) :
    (Call c a).cache = { c with ResponsesList := MoveToFront c.ResponsesList el } := by
  unfold Call; rw [hg]

theorem Call_hit_list {c : Cache} (h : Inv c) {a : Nat} {el : Element}
    (hg : Lookup.get c.ResponsesLookup a = some el) :
    (Call c a).cache.ResponsesList = el :: Remove c.ResponsesList el := by
  rw [Call_hit_cache hg]
  show MoveToFront c.ResponsesList el = _
  rw [MoveToFront, linked_of_mem (h.get_linked a el hg).1, if_pos rfl]

theorem inv_keys_iff {c : Cache} (h : Inv c) (k : Nat) :
    k ∈ Lookup.keys c.ResponsesLookup ↔ k ∈ listKeys c := by
  rw [mem_keys_iff]
  constructor
  · rintro ⟨e, he⟩
    obtain ⟨hm, hk⟩ := h.get_linked k e he
    exact List.mem_map.mpr ⟨e, hm, hk⟩
  · intro hk
    obtain ⟨e, hm, rfl⟩ := List.mem_map.mp hk
    exact ⟨e, h.linked_get e hm⟩

/-! ## Memoised values -/

theorem get_delete_some {m : Lookup} {k k' : Nat} {e : Element}
    (h : Lookup.get (Lookup.delete m k) k' = some e) : Lookup.get m k' = some e := by
  by_cases hk : k' = k
  · subst hk
    rw [get_delete_self] at h
    cases h
  · rwa [get_delete_ne _ hk] at h

theorem get_evict_some {c : Cache} {k : Nat} {e : Element}
    (h : Lookup.get (evict c).ResponsesLookup k = some e) :
    Lookup.get c.ResponsesLookup k = some e := by
  unfold evict at h
  split at h
  · split at h
    · exact get_delete_some h
    · exact h
  · exact h

theorem memo_New (size : Int) (f : Nat → Nat) : Memo (New size f) := by
  intro k e h
  simp [New, Lookup.get] at h

theorem memo_Call {c : Cache} (h : Memo c) (a : Nat) : Memo (Call c a).cache := by
  intro k e hk
  rw [Call_function]
  cases hg : Lookup.get c.ResponsesLookup a with
  | some el =>
    rw [Call_hit_cache hg] at hk
    exact h k e hk
  | none =>
    have h1 : (Call c a).cache = addEntry (evict c) a (c.function a) := by
      unfold Call; rw [hg]
    rw [h1] at hk
    have hk' : Lookup.get
        (Lookup.assign (evict c).ResponsesLookup a ⟨(evict c).nextAddr, ⟨a, c.function a⟩⟩) k
        = some e := hk
    by_cases hka : k = a
    · subst hka
      rw [get_assign_self] at hk'
      cases hk'
      exact ⟨rfl, rfl⟩
    · rw [get_assign_ne _ _ hka] at hk'
      exact h k e (get_evict_some hk')

theorem memo_run {c : Cache} (h : Memo c) (ks : List Nat) : Memo (run c ks) := by
  induction ks generalizing c with
  | nil => exact h
  | cons k ks ih => exact ih (memo_Call h k)

theorem Call_ret_of_memo {c : Cache} (h : Memo c) (k : Nat) :
    (Call c k).ret = c.function k := by
  cases hg : Lookup.get c.ResponsesLookup k with
  | some el =>
    have : (Call c k).ret = el.Value.Value := by unfold Call; rw [hg]
    rw [this]
    exact (h k el hg).2
  | none =>
    unfold Call; rw [hg]

/-! ## Returned values, invocations and the bijection -/

/-- C1 (transparency of memoization): in every state reached from
`New size f` by a sequential series of calls, `Call k` returns `f k`, on a
miss and on a hit; a cold call and the warm call that follows it both return
`f k`; with size 5 and the factorial, `Call 5` returns 120 both times. -/
theorem Call_transparent (size : Int) (f : Nat → Nat) (ks : List Nat) (k : Nat) :
    (Call (run (New size f) ks) k).ret = f k ∧
    (Call (Call (run (New size f) ks) k).cache k).ret = f k ∧
    (Call (New 5 factorial) 5).ret = 120 ∧
    (Call (Call (New 5 factorial) 5).cache 5).ret = 120 := by
  have hm : Memo (run (New size f) ks) := memo_run (memo_New size f) ks
  have hf : (run (New size f) ks).function = f := run_function _ _
  refine ⟨?_, ?_, by decide, by decide⟩
  · rw [Call_ret_of_memo hm, hf]
  · rw [Call_ret_of_memo (memo_Call hm k), Call_function, hf]

theorem invoked_eq (c : Cache) (k : Nat) :
    (Call c k).invoked = if (Lookup.get c.ResponsesLookup k).isSome then [] else [k] := by
  unfold Call
  cases hg : Lookup.get c.ResponsesLookup k <;> simp

/-- C3 (bijection invariant): in every state reached from `New size f` by a
sequential series of calls, the keys of the index are exactly the keys of the
entries of the recency list, and every index key `k` is mapped to an element
linked in the list whose entry has key `k`; conversely every element of the
list is the one the index binds to its entry's key. -/
theorem index_list_bijection (size : Int) (f : Nat → Nat) (ks : List Nat) :
    (∀ k, k ∈ Lookup.keys (run (New size f) ks).ResponsesLookup ↔
      k ∈ listKeys (run (New size f) ks)) ∧
    (∀ k e, Lookup.get (run (New size f) ks).ResponsesLookup k = some e →
      e ∈ (run (New size f) ks).ResponsesList ∧ e.Value.Key = k) ∧
    (∀ e ∈ (run (New size f) ks).ResponsesList,
      Lookup.get (run (New size f) ks).ResponsesLookup e.Value.Key = some e) := by
  have h : Inv (run (New size f) ks) := inv_run (inv_New size f) ks
  exact ⟨inv_keys_iff h, h.get_linked, h.linked_get⟩

/-! ## Length of the recency list -/

theorem length_Call_hit {c : Cache} (h : Inv c) {a : Nat} {el : Element}
    (hg : Lookup.get c.ResponsesLookup a = some el) :
    (Call c a).cache.ResponsesList.length = c.ResponsesList.length := by
  rw [Call_hit_cache hg]
  exact (MoveToFront_perm h.addr_nodup (h.get_linked a el hg).1).length_eq

theorem length_Call_miss {c : Cache} (h : Inv c) {a : Nat}
    (hg : Lookup.get c.ResponsesLookup a = none) :
    (Call c a).cache.ResponsesList.length =
      if Len c.ResponsesList ≥ c.size then (c.ResponsesList.length - 1) + 1
      else c.ResponsesList.length + 1 := by
  rw [Call_miss_list h hg]
  split <;> simp

theorem length_Call_le {c : Cache} (h : Inv c) (a : Nat)
    (hl : Len c.ResponsesList ≤ max c.size 1) :
    Len (Call c a).cache.ResponsesList ≤ max c.size 1 := by
  unfold Len at hl ⊢
  cases hg : Lookup.get c.ResponsesLookup a with
  | some el => rw [length_Call_hit h hg]; exact hl
  | none =>
    rw [length_Call_miss h hg]
    unfold Len
    split
    · rcases Nat.eq_zero_or_pos c.ResponsesList.length with h0 | h0
      · rw [h0]; simp
      · have : c.ResponsesList.length - 1 + 1 = c.ResponsesList.length := by omega
        rw [this]; exact hl
    · rename_i hlt
      have : (c.ResponsesList.length : Int) < c.size := by omega
      have h2 : ((c.ResponsesList.length + 1 : Nat) : Int) ≤ c.size := by push_cast; omega
      exact le_trans h2 (le_max_left _ _)

theorem length_run_le {c : Cache} (h : Inv c) (ks : List Nat)
    (hl : Len c.ResponsesList ≤ max c.size 1) :
    Len (run c ks).ResponsesList ≤ max c.size 1 := by
  induction ks generalizing c with
  | nil => exact hl
  | cons k ks ih =>
    rw [run_cons]
    have := ih (inv_Call h k) (by rw [Call_size]; exact length_Call_le h k hl)
    rwa [Call_size] at this

theorem length_reachable_le (size : Int) (f : Nat → Nat) (ks : List Nat) :
    Len (run (New size f) ks).ResponsesList ≤ max size 1 := by
  have h := length_run_le (inv_New size f) ks (by simp [New, Len])
  exact h

/-- C4, as stated, fails at capacity 0: after `Call 1` on `New 0 factorial`
there has been one distinct-key miss, which is at least the capacity, and the
recency list has length 1, which exceeds the capacity. -/
theorem bounded_size_fails_at_zero :
    (0 : Int) ≤ (distinctMisses (New 0 factorial) [1] : Int) ∧
    ¬ (Len (run (New 0 factorial) [1]).ResponsesList ≤ 0) := by
  decide

/-! ## Capacity zero -/

theorem eq_singleton_of_nodup {l : List Nat} {k : Nat} (hn : l.Nodup)
    (h : ∀ x, x ∈ l ↔ x = k) : l = [k] := by
  have hp : List.Perm l [k] := by
    rw [List.perm_ext_iff_of_nodup hn (List.nodup_singleton k)]
    intro x
    rw [h x, List.mem_singleton]
  exact List.perm_singleton.mp hp

theorem Call_single {c : Cache} (h : Inv c) (hm : Memo c) (hs : c.size ≤ 1)
    (hl : c.ResponsesList.length ≤ 1) (k : Nat) :
    (Call c k).cache.ResponsesList.map Element.Value = [⟨k, c.function k⟩] := by
  cases hg : Lookup.get c.ResponsesLookup k with
  | some el =>
    obtain ⟨hmem, _⟩ := h.get_linked k el hg
    obtain ⟨hk, hv⟩ := hm k el hg
    have hc : c.ResponsesList = [el] := by
      cases hcl : c.ResponsesList with
      | nil => rw [hcl] at hmem; simp at hmem
      | cons x t =>
        rw [hcl] at hmem hl
        cases t with
        | nil => simp at hmem; rw [hmem]
        | cons y t => simp at hl
    rw [Call_hit_list h hg, hc]
    have : Remove [el] el = [] := by simp [Remove]
    rw [this]
    cases el with
    | mk addr v =>
      cases v
      simp only at hk hv
      simp [hk, hv]
  | none =>
    rw [Call_miss_list h hg]
    have hd : c.ResponsesList.dropLast = [] := by
      cases hcl : c.ResponsesList with
      | nil => rfl
      | cons x t =>
        rw [hcl] at hl
        cases t with
        | nil => rfl
        | cons y t => simp at hl
    split
    · rw [hd]; rfl
    · rename_i hlt
      have h0 : c.ResponsesList = [] := by
        unfold Len at hlt
        have : c.ResponsesList.length = 0 := by omega
        exact List.length_eq_zero.mp this
      rw [h0]; rfl

theorem listKeys_of_values {c : Cache} {k v : Nat}
    (h : c.ResponsesList.map Element.Value = [⟨k, v⟩]) : listKeys c = [k] := by
  have : listKeys c = (c.ResponsesList.map Element.Value).map Entry.Key := by
    simp [listKeys, List.map_map, Function.comp_def]
  rw [this, h]; rfl

theorem keys_of_listKeys {c : Cache} (h : Inv c) {k : Nat} (hk : listKeys c = [k]) :
    Lookup.keys c.ResponsesLookup = [k] := by
  apply eq_singleton_of_nodup h.keys_nodup
  intro x
  rw [inv_keys_iff h, hk, List.mem_singleton]

theorem listKeys_run_small (size : Int) (f : Nat → Nat) (hs : size ≤ 1) (ks : List Nat) :
    listKeys (run (New size f) ks) = ks.getLast?.toList := by
  rcases List.eq_nil_or_concat ks with rfl | ⟨ks', k, rfl⟩
  · rfl
  · rw [List.concat_eq_append, run_snoc, List.getLast?_append]
    have hi : Inv (run (New size f) ks') := inv_run (inv_New size f) ks'
    have hl : Len (run (New size f) ks').ResponsesList ≤ max size 1 :=
      length_reachable_le size f ks'
    rw [max_eq_right hs] at hl
    have hl' : (run (New size f) ks').ResponsesList.length ≤ 1 := by
      unfold Len at hl; omega
    have := Call_single hi (memo_run (memo_New size f) ks')
      (by rw [run_size]; exact hs) hl' k
    rw [listKeys_of_values this]
    rfl

/-- C5, as stated, fails: on `New 0 factorial` the call `Call 7` retains its
entry (list and index are not empty afterwards), and a second `Call 7` finds
key 7 in the index and does not invoke the function. -/
theorem capacity_zero_retains :
    (Call (New 0 factorial) 7).cache.ResponsesList ≠ [] ∧
    (Call (New 0 factorial) 7).cache.ResponsesLookup ≠ [] ∧
    (Lookup.get (run (New 0 factorial) [7]).ResponsesLookup 7).isSome = true ∧
    (Call (run (New 0 factorial) [7]) 7).invoked = [] := by
  decide

/-- C5 (capacity 0), amended: on a cache built with `New 0 f`, in every
reachable state, after `Call k` exactly one entry is retained: the recency
list holds the single entry `(k, f k)` and the index binds the single key `k`;
the call is a hit (the function is not invoked) exactly when `k` is the key of
the call just before it, and a miss (the function is invoked once, on `k`)
otherwise, the first call included. -/
theorem capacity_zero_keeps_last (f : Nat → Nat) (ks : List Nat) (k : Nat) :
    (Call (run (New 0 f) ks) k).cache.ResponsesList.map Element.Value = [⟨k, f k⟩] ∧
    Lookup.keys (Call (run (New 0 f) ks) k).cache.ResponsesLookup = [k] ∧
    (Call (run (New 0 f) ks) k).invoked = if ks.getLast? = some k then [] else [k] := by
  have hi : Inv (run (New 0 f) ks) := inv_run (inv_New 0 f) ks
  have hl : Len (run (New 0 f) ks).ResponsesList ≤ max 0 1 := length_reachable_le 0 f ks
  have hl' : (run (New 0 f) ks).ResponsesList.length ≤ 1 := by
    unfold Len at hl
    have : max (0 : Int) 1 = 1 := by decide
    omega
  have hs : (run (New 0 f) ks).size ≤ 1 := by
    rw [run_size]; show (0 : Int) ≤ 1; decide
  have h1 := Call_single hi (memo_run (memo_New 0 f) ks) hs hl' k
  rw [run_function] at h1
  refine ⟨h1, keys_of_listKeys (inv_Call hi k) (listKeys_of_values h1), ?_⟩
  rw [invoked_eq]
  have hk := inv_keys_iff hi k
  rw [listKeys_run_small 0 f (by decide) ks] at hk
  by_cases hlast : ks.getLast? = some k
  · rw [if_pos hlast]
    have : k ∈ Lookup.keys (run (New 0 f) ks).ResponsesLookup := by
      rw [hk, hlast]; simp
    obtain ⟨e, he⟩ := mem_keys_iff.mp this
    rw [he]; rfl
  · rw [if_neg hlast]
    have : k ∉ Lookup.keys (run (New 0 f) ks).ResponsesLookup := by
      rw [hk]
      intro hm
      apply hlast
      cases hq : ks.getLast? with
      | none => rw [hq] at hm; simp at hm
      | some q => rw [hq] at hm; simp at hm; rw [hm]
    rw [get_none_iff.mpr this]; rfl

/-! ## The front of the recency list -/

theorem Front_Call {c : Cache} (h : Inv c) (k : Nat) :
    (Front (Call c k).cache.ResponsesList).map (fun e => e.Value.Key) = some k := by
  cases hg : Lookup.get c.ResponsesLookup k with
  | some el =>
    rw [Call_hit_list h hg]
    simp [Front, (h.get_linked k el hg).2]
  | none =>
    rw [Call_miss_list h hg]
    simp [Front]

/-- C6 (most recent at front): in every state reached from `New size f` by a
sequential series of calls, right after `Call k` the front entry of the
recency list has key `k`, on a miss and on a hit; in particular after
`Call A`, `Call B`, `Call A` the front entry has key `A`. -/
theorem front_is_last_called (size : Int) (f : Nat → Nat) (ks : List Nat) (k A B : Nat) :
    (Front (Call (run (New size f) ks) k).cache.ResponsesList).map (fun e => e.Value.Key)
      = some k ∧
    (Front (run (New size f) (ks ++ [A, B, A])).ResponsesList).map (fun e => e.Value.Key)
      = some A := by
  refine ⟨Front_Call (inv_run (inv_New size f) ks) k, ?_⟩
  have : ks ++ [A, B, A] = (ks ++ [A, B]) ++ [A] := by simp
  rw [this, run_snoc]
  exact Front_Call (inv_run (inv_New size f) _) A

/-! ## Eviction -/

/-- C7 (eviction victim): in a consistent state whose list is non-empty (its
back element is `b`) and has length at least `size`, a miss `Call k` removes
exactly the back element from the list (the list becomes the new element
followed by the old list without its last element), the key of the evicted
entry, which is not `k`, is no longer bound in the index, every other key is
bound as before (to the same element, hence with the same value), and `k` is
bound to the new element, which carries `(k, f k)`. -/
theorem miss_evicts_back (c : Cache) (k : Nat) (b : Element) (hc : Consistent c)
    (hb : Back c.ResponsesList = some b) (hfull : Len c.ResponsesList ≥ c.size)
    (hmiss : Lookup.get c.ResponsesLookup k = none) :
    (Call c k).cache.ResponsesList =
      ⟨c.nextAddr, ⟨k, c.function k⟩⟩ :: c.ResponsesList.dropLast ∧
    c.ResponsesList = c.ResponsesList.dropLast ++ [b] ∧
    b ∉ (Call c k).cache.ResponsesList ∧
    b.Value.Key ≠ k ∧
    Lookup.get (Call c k).cache.ResponsesLookup b.Value.Key = none ∧
    (∀ k', k' ≠ b.Value.Key → k' ≠ k →
      Lookup.get (Call c k).cache.ResponsesLookup k' = Lookup.get c.ResponsesLookup k') ∧
    Lookup.get (Call c k).cache.ResponsesLookup k = some ⟨c.nextAddr, ⟨k, c.function k⟩⟩ := by
  have h : Inv c := (consistent_iff_inv c).mp hc
  have hbm : b ∈ c.ResponsesList := List.mem_of_getLast?_eq_some hb
  have hl : c.ResponsesList = c.ResponsesList.dropLast ++ [b] :=
    (List.dropLast_append_getLast? b hb).symm
  have hbk : b.Value.Key ≠ k := by
    intro hk
    have := h.linked_get b hbm
    rw [hk, hmiss] at this
    cases this
  have hlist : (Call c k).cache.ResponsesList =
      ⟨c.nextAddr, ⟨k, c.function k⟩⟩ :: c.ResponsesList.dropLast := by
    rw [Call_miss_list h hmiss, if_pos hfull]
  have hidx : (Call c k).cache.ResponsesLookup =
      Lookup.assign (Lookup.delete c.ResponsesLookup b.Value.Key) k
        ⟨c.nextAddr, ⟨k, c.function k⟩⟩ := by
    have h1 : (Call c k).cache = addEntry (evict c) k (c.function k) := by
      unfold Call; rw [hmiss]
    have h2 : evict c = { c with
        ResponsesLookup := Lookup.delete c.ResponsesLookup b.Value.Key
        ResponsesList := Remove c.ResponsesList b } := by
      unfold evict; rw [if_pos hfull, hb]
    rw [h1, h2]; rfl
  refine ⟨hlist, hl, ?_, hbk, ?_, ?_, ?_⟩
  · rw [hlist]
    intro hm
    rcases List.mem_cons.mp hm with hm | hm
    · have := h.addr_lt b hbm
      rw [hm] at this
      exact absurd this (lt_irrefl _)
    · have hn := h.addr_nodup
      rw [hl, List.map_append, List.nodup_append] at hn
      exact hn.2.2 (List.mem_map_of_mem Element.addr hm) (by simp)
  · rw [hidx, get_assign_ne _ _ hbk, get_delete_self]
  · intro k' h1 h2
    rw [hidx, get_assign_ne _ _ h2, get_delete_ne _ h1]
  · rw [hidx, get_assign_self]

/-- Witness of `miss_evicts_back`: capacity 2 after calls on 1 and 2, then a
miss on 3 evicts the entry of key 1. -/
theorem miss_evicts_back_witness :
    Consistent (run (New 2 factorial) [1, 2]) ∧
    Back (run (New 2 factorial) [1, 2]).ResponsesList = some ⟨0, ⟨1, 1⟩⟩ ∧
    Lookup.get (Call (run (New 2 factorial) [1, 2]) 3).cache.ResponsesLookup 1 = none ∧
    Lookup.get (Call (run (New 2 factorial) [1, 2]) 3).cache.ResponsesLookup 3
      = some ⟨2, ⟨3, 6⟩⟩ :=
  have h := miss_evicts_back (run (New 2 factorial) [1, 2]) 3 ⟨0, ⟨1, 1⟩⟩
    (by decide) (by decide) (by decide) (by decide)
  ⟨by decide, by decide, h.2.2.2.2.1, h.2.2.2.2.2.2⟩

/-! ## Misses on fresh keys -/

theorem length_listKeys (c : Cache) : (listKeys c).length = c.ResponsesList.length := by
  simp [listKeys]

theorem get_none_of_not_mem_listKeys {c : Cache} (h : Inv c) {k : Nat}
    (hk : k ∉ listKeys c) : Lookup.get c.ResponsesLookup k = none := by
  rw [get_none_iff, inv_keys_iff h]
  exact hk

theorem listKeys_Call_miss {c : Cache} (h : Inv c) {k : Nat}
    (hg : Lookup.get c.ResponsesLookup k = none) :
    listKeys (Call c k).cache =
      k :: (if Len c.ResponsesList ≥ c.size then (listKeys c).dropLast else listKeys c) := by
  unfold listKeys
  rw [Call_miss_list h hg]
  split <;> simp

theorem listKeys_run_fresh (size : Int) (f : Nat → Nat) (ks : List Nat) (hn : ks.Nodup)
    (hlen : (ks.length : Int) ≤ size) : listKeys (run (New size f) ks) = ks.reverse := by
  induction ks using List.reverseRecOn with
  | nil => rfl
  | append_singleton ks k ih =>
    have hn' : ks.Nodup ∧ k ∉ ks := by
      rw [List.nodup_append] at hn
      exact ⟨hn.1, fun hm => hn.2.2 hm (by simp)⟩
    have hlt : (ks.length : Int) < size := by
      rw [List.length_append] at hlen
      simp only [List.length_singleton] at hlen
      omega
    have ih' := ih hn'.1 (le_of_lt hlt)
    have hi : Inv (run (New size f) ks) := inv_run (inv_New size f) ks
    have hg : Lookup.get (run (New size f) ks).ResponsesLookup k = none := by
      apply get_none_of_not_mem_listKeys hi
      rw [ih', List.mem_reverse]
      exact hn'.2
    have hnf : ¬ Len (run (New size f) ks).ResponsesList ≥ (run (New size f) ks).size := by
      rw [run_size]
      show ¬ ((run (New size f) ks).ResponsesList.length : Int) ≥ size
      rw [← length_listKeys, ih', List.length_reverse]
      omega
    rw [run_snoc, listKeys_Call_miss hi hg, if_neg hnf, ih', List.reverse_append]
    rfl

/-- C8 (eviction order from a fresh cache): for a capacity `c` of at least 1
and `c + 1` pairwise distinct keys `k0 :: rest` called in order on `New c f`,
afterwards the first key `k0` is absent from the index, each of the other `c`
keys is present (bound to an entry carrying its value), the index binds no
further key, and the recency list holds the keys of `rest`, latest first. -/
theorem first_key_evicted (c : Int) (f : Nat → Nat) (k0 : Nat) (rest : List Nat)
    (hc : 1 ≤ c) (hn : (k0 :: rest).Nodup) (hlen : (rest.length : Int) = c) :
    Lookup.get (run (New c f) (k0 :: rest)).ResponsesLookup k0 = none ∧
    (∀ k ∈ rest, ∃ e, Lookup.get (run (New c f) (k0 :: rest)).ResponsesLookup k = some e ∧
      e.Value = ⟨k, f k⟩) ∧
    (∀ k, k ∈ Lookup.keys (run (New c f) (k0 :: rest)).ResponsesLookup ↔ k ∈ rest) ∧
    listKeys (run (New c f) (k0 :: rest)) = rest.reverse := by
  rcases List.eq_nil_or_concat rest with rfl | ⟨init, kl, rfl⟩
  · simp at hlen; omega
  rw [List.concat_eq_append] at hn hlen ⊢
  have hpre : (k0 :: init).Nodup ∧ kl ∉ k0 :: init := by
    rw [← List.cons_append, List.nodup_append] at hn
    exact ⟨hn.1, fun hm => hn.2.2 hm (by simp)⟩
  have hlen' : ((k0 :: init).length : Int) = c := by
    rw [List.length_append] at hlen
    simp only [List.length_singleton] at hlen
    simp only [List.length_cons]
    omega
  have hkeys := listKeys_run_fresh c f (k0 :: init) hpre.1 (le_of_eq hlen')
  have hi : Inv (run (New c f) (k0 :: init)) := inv_run (inv_New c f) _
  have hg : Lookup.get (run (New c f) (k0 :: init)).ResponsesLookup kl = none := by
    apply get_none_of_not_mem_listKeys hi
    rw [hkeys, List.mem_reverse]
    exact hpre.2
  have hfull : Len (run (New c f) (k0 :: init)).ResponsesList ≥
      (run (New c f) (k0 :: init)).size := by
    rw [run_size]
    show ((run (New c f) (k0 :: init)).ResponsesList.length : Int) ≥ c
    rw [← length_listKeys, hkeys, List.length_reverse]
    exact le_of_eq hlen'.symm
  have hfinal : listKeys (run (New c f) (k0 :: (init ++ [kl]))) = (init ++ [kl]).reverse := by
    rw [← List.cons_append, run_snoc, listKeys_Call_miss hi hg, if_pos hfull, hkeys,
      List.reverse_cons, List.dropLast_concat, List.reverse_append]
    rfl
  have hi' : Inv (run (New c f) (k0 :: (init ++ [kl]))) := inv_run (inv_New c f) _
  have hmem : ∀ k, k ∈ Lookup.keys (run (New c f) (k0 :: (init ++ [kl]))).ResponsesLookup ↔
      k ∈ init ++ [kl] := by
    intro k
    rw [inv_keys_iff hi', hfinal, List.mem_reverse]
  refine ⟨?_, ?_, hmem, hfinal⟩
  · rw [get_none_iff, hmem]
    exact (List.nodup_cons.mp hn).1
  · intro k hk
    obtain ⟨e, he⟩ := mem_keys_iff.mp ((hmem k).mpr hk)
    refine ⟨e, he, ?_⟩
    have hm := memo_run (memo_New c f) (k0 :: (init ++ [kl])) k e he
    rw [run_function] at hm
    cases e with
    | mk addr v =>
      cases v
      simp only at hm
      simp [hm.1, hm.2, New]

/-- Witness of `first_key_evicted`: capacity 2 with keys 1, 2, 3 leaves
exactly 2 and 3 in the cache, key 1 is absent. -/
theorem first_key_evicted_witness :
    (1 : Int) ≤ 2 ∧ [1, 2, 3].Nodup ∧
    Lookup.get (run (New 2 factorial) [1, 2, 3]).ResponsesLookup 1 = none ∧
    listKeys (run (New 2 factorial) [1, 2, 3]) = [3, 2] :=
  have h := first_key_evicted 2 factorial 1 [2, 3] (by decide) (by decide) (by decide)
  ⟨by decide, by decide, h.1, h.2.2.2⟩

/-! ## A wrapped function that panics -/

theorem CallPanic_eq_Call (panics : Nat → Bool) (c : Cache) (a : Nat)
    (h : panics a = false) :
    (CallPanic panics c a).ret = some (Call c a).ret ∧
    (CallPanic panics c a).cache = (Call c a).cache ∧
    (CallPanic panics c a).invoked = (Call c a).invoked := by
  unfold CallPanic Call
  cases Lookup.get c.ResponsesLookup a <;> simp [h]

/-- C9 (failure atomicity): when the wrapped function panics during a miss
`Call k`, the panic reaches the caller (no value is returned) and the cache is
left exactly as it was before the call: no eviction, no insertion. -/
theorem panic_leaves_cache (panics : Nat → Bool) (c : Cache) (k : Nat)
    (hmiss : Lookup.get c.ResponsesLookup k = none) (hp : panics k = true) :
    (CallPanic panics c k).ret = none ∧
    (CallPanic panics c k).cache = c ∧
    (CallPanic panics c k).cache.ResponsesList = c.ResponsesList ∧
    (CallPanic panics c k).cache.ResponsesLookup = c.ResponsesLookup := by
  unfold CallPanic
  rw [hmiss]
  simp [hp]

/-- Witness of `panic_leaves_cache`: a full cache of capacity 2 holding the
keys 1 and 2, and a function that panics at 3. -/
theorem panic_leaves_cache_witness :
    Lookup.get (run (New 2 factorial) [1, 2]).ResponsesLookup 3 = none ∧
    (CallPanic (fun a => decide (a = 3)) (run (New 2 factorial) [1, 2]) 3).ret = none ∧
    (CallPanic (fun a => decide (a = 3)) (run (New 2 factorial) [1, 2]) 3).cache.ResponsesList
      = (run (New 2 factorial) [1, 2]).ResponsesList :=
  have h := panic_leaves_cache (fun a => decide (a = 3)) (run (New 2 factorial) [1, 2]) 3
    (by decide) (by decide)
  ⟨by decide, h.1, h.2.2.1⟩

/-! ## Repeated hits -/

theorem run_replicate_hit {c : Cache} (h : Inv c) {K : Nat} {el : Element}
    (hK : Lookup.get c.ResponsesLookup K = some el) (n : Nat) :
    (run c (List.replicate n K)).ResponsesLookup = c.ResponsesLookup ∧
    List.Perm (run c (List.replicate n K)).ResponsesList c.ResponsesList ∧
    Remove (run c (List.replicate n K)).ResponsesList el = Remove c.ResponsesList el := by
  induction n generalizing c with
  | zero => exact ⟨rfl, List.Perm.refl _, rfl⟩
  | succ n ih =>
    rw [List.replicate_succ, run_cons]
    have hc : (Call c K).cache = { c with ResponsesList := MoveToFront c.ResponsesList el } :=
      Call_hit_cache hK
    have hidx : (Call c K).cache.ResponsesLookup = c.ResponsesLookup := by rw [hc]
    have hperm : List.Perm (Call c K).cache.ResponsesList c.ResponsesList := by
      rw [hc]
      exact MoveToFront_perm h.addr_nodup (h.get_linked K el hK).1
    have hrem : Remove (Call c K).cache.ResponsesList el = Remove c.ResponsesList el := by
      rw [Call_hit_list h hK]
      simp [Remove, List.filter_filter]
    obtain ⟨h1, h2, h3⟩ := ih (inv_Call h K) (by rw [hidx]; exact hK)
    exact ⟨h1.trans hidx, h2.trans hperm, h3.trans hrem⟩

/-- C10 (hits change only the order): in a consistent state where the key `K`
is cached (bound to the element `el`), any number `n` of repeated `Call K`
leaves the index as it was (so its key set is unchanged), leaves `K` bound to
the same element `el`, with the same stored value, and leaves the elements of
the recency list, and so their `(key, value)` entries, unchanged as a multiset;
only the position of `el` may change: the list without `el` is the same as
before.  Every one of these calls returns the stored value of `el`. -/
theorem hits_only_reorder (c : Cache) (K : Nat) (el : Element) (n : Nat)
    (hc : Consistent c) (hK : Lookup.get c.ResponsesLookup K = some el) :
    (run c (List.replicate n K)).ResponsesLookup = c.ResponsesLookup ∧
    Lookup.keys (run c (List.replicate n K)).ResponsesLookup = Lookup.keys c.ResponsesLookup ∧
    Lookup.get (run c (List.replicate n K)).ResponsesLookup K = some el ∧
    List.Perm (run c (List.replicate n K)).ResponsesList c.ResponsesList ∧
    List.Perm ((run c (List.replicate n K)).ResponsesList.map Element.Value)
      (c.ResponsesList.map Element.Value) ∧
    Remove (run c (List.replicate n K)).ResponsesList el = Remove c.ResponsesList el ∧
    (Call (run c (List.replicate n K)) K).ret = el.Value.Value := by
  have h : Inv c := (consistent_iff_inv c).mp hc
  obtain ⟨h1, h2, h3⟩ := run_replicate_hit h hK n
  refine ⟨h1, by rw [h1], by rw [h1]; exact hK, h2, h2.map _, h3, ?_⟩
  unfold Call
  rw [h1, hK]

/-- Witness of `hits_only_reorder`: three hits on key 1 in a cache of capacity
3 holding the keys 1 and 2. -/
theorem hits_only_reorder_witness :
    Consistent (run (New 3 factorial) [1, 2]) ∧
    Lookup.get (run (New 3 factorial) [1, 2]).ResponsesLookup 1 = some ⟨0, ⟨1, 1⟩⟩ ∧
    (run (run (New 3 factorial) [1, 2]) (List.replicate 3 1)).ResponsesLookup
      = (run (New 3 factorial) [1, 2]).ResponsesLookup ∧
    List.Perm (run (run (New 3 factorial) [1, 2]) (List.replicate 3 1)).ResponsesList
      (run (New 3 factorial) [1, 2]).ResponsesList :=
  have h := hits_only_reorder (run (New 3 factorial) [1, 2]) 1 ⟨0, ⟨1, 1⟩⟩ 3
    (by decide) (by decide)
  ⟨by decide, by decide, h.1, h.2.2.2.1⟩

/-! ## Lock discipline -/

theorem unguarded_hit {c : Cache} {a : Nat} {el : Element}
    (hg : Lookup.get c.ResponsesLookup a = some el) :
    unguarded false (CallTrace c a) = [Event.readLookup] := by
  unfold CallTrace
  rw [hg]
  rfl

theorem readLookup_unguarded (c : Cache) (a : Nat) :
    Event.readLookup ∈ unguarded false (CallTrace c a) := by
  unfold CallTrace
  simp [unguarded, Event.access]

theorem unguarded_are_reads (c : Cache) (a : Nat) :
    ∀ e ∈ unguarded false (CallTrace c a),
      e = Event.readLookup ∨ e = Event.readLen ∨ e = Event.readBack := by
  unfold CallTrace
  cases Lookup.get c.ResponsesLookup a with
  | some el => intro e he; simp [unguarded, Event.access] at he; simp [he]
  | none =>
    by_cases hfull : Len c.ResponsesList ≥ c.size
    · cases Back c.ResponsesList with
      | some b =>
        intro e he
        simp [unguarded, Event.access, hfull] at he
        rcases he with he | he | he <;> simp [he]
      | none =>
        intro e he
        simp [unguarded, Event.access, hfull] at he
        rcases he with he | he | he <;> simp [he]
    · intro e he
      simp [unguarded, Event.access, hfull] at he
      rcases he with he | he <;> simp [he]

/-- C11 (lock discipline) fails on the code: in the full cache of capacity 1
holding key 1, the miss `Call 2` reads the index (line 60), the length
(line 74) and the back element (line 76) while the mutex is not held, and the
hit `Call 1` reads the index while the mutex is not held; only the writes are
made under the mutex. -/
theorem reads_outside_mutex :
    unguarded false (CallTrace (run (New 1 factorial) [1]) 2)
      = [Event.readLookup, Event.readLen, Event.readBack] ∧
    unguarded false (CallTrace (run (New 1 factorial) [1]) 1) = [Event.readLookup] := by
  decide

/-! ## Misses and the length of the list -/

/-- C12 (single eviction per miss): in a consistent state whose list is
non-empty and has length at least `size`, by whatever margin, a miss `Call k`
removes exactly one entry, the back one, before it inserts: the list becomes
the new element followed by the old list without its last element, and its
length is the same as before the call. -/
theorem miss_evicts_once (c : Cache) (k : Nat) (hc : Consistent c)
    (hne : c.ResponsesList ≠ []) (hfull : Len c.ResponsesList ≥ c.size)
    (hmiss : Lookup.get c.ResponsesLookup k = none) :
    (Call c k).cache.ResponsesList =
      ⟨c.nextAddr, ⟨k, c.function k⟩⟩ :: c.ResponsesList.dropLast ∧
    c.ResponsesList.dropLast.length + 1 = c.ResponsesList.length ∧
    (Call c k).cache.ResponsesList.length = c.ResponsesList.length := by
  have h : Inv c := (consistent_iff_inv c).mp hc
  have hlist := Call_miss_list h hmiss
  rw [if_pos hfull] at hlist
  have hpos : 0 < c.ResponsesList.length := List.length_pos.mpr hne
  have hd : c.ResponsesList.dropLast.length + 1 = c.ResponsesList.length := by
    rw [List.length_dropLast]; omega
  refine ⟨hlist, hd, ?_⟩
  rw [hlist, List.length_cons, hd]

/-- Witness of `miss_evicts_once`: a consistent state of capacity 1 that
holds three entries, two more than its capacity; a miss on key 4 leaves three
entries. -/
theorem miss_evicts_once_witness :
    Consistent { function := factorial,
                 ResponsesList := [⟨2, ⟨3, 6⟩⟩, ⟨1, ⟨2, 2⟩⟩, ⟨0, ⟨1, 1⟩⟩],
                 ResponsesLookup := [(3, ⟨2, ⟨3, 6⟩⟩), (2, ⟨1, ⟨2, 2⟩⟩), (1, ⟨0, ⟨1, 1⟩⟩)],
                 size := 1, nextAddr := 3 } ∧
    (Call { function := factorial,
            ResponsesList := [⟨2, ⟨3, 6⟩⟩, ⟨1, ⟨2, 2⟩⟩, ⟨0, ⟨1, 1⟩⟩],
            ResponsesLookup := [(3, ⟨2, ⟨3, 6⟩⟩), (2, ⟨1, ⟨2, 2⟩⟩), (1, ⟨0, ⟨1, 1⟩⟩)],
            size := 1, nextAddr := 3 } 4).cache.ResponsesList.length = 3 :=
  have h := miss_evicts_once
    { function := factorial,
      ResponsesList := [⟨2, ⟨3, 6⟩⟩, ⟨1, ⟨2, 2⟩⟩, ⟨0, ⟨1, 1⟩⟩],
      ResponsesLookup := [(3, ⟨2, ⟨3, 6⟩⟩), (2, ⟨1, ⟨2, 2⟩⟩), (1, ⟨0, ⟨1, 1⟩⟩)],
      size := 1, nextAddr := 3 } 4 (by decide) (by decide) (by decide) (by decide)
  ⟨by decide, h.2.2⟩

/-- C13 (miss below capacity): in a consistent state whose list is shorter
than `size`, a miss `Call k` evicts nothing: the list becomes the new element,
carrying `(k, f k)`, followed by the whole old list in its order, its length
grows by exactly one, the index binds `k` to the new element and binds every
other key as before. -/
theorem miss_below_capacity (c : Cache) (k : Nat) (hc : Consistent c)
    (hlt : Len c.ResponsesList < c.size)
    (hmiss : Lookup.get c.ResponsesLookup k = none) :
    (Call c k).cache.ResponsesList = ⟨c.nextAddr, ⟨k, c.function k⟩⟩ :: c.ResponsesList ∧
    (Call c k).cache.ResponsesList.length = c.ResponsesList.length + 1 ∧
    Lookup.get (Call c k).cache.ResponsesLookup k = some ⟨c.nextAddr, ⟨k, c.function k⟩⟩ ∧
    (∀ k', k' ≠ k →
      Lookup.get (Call c k).cache.ResponsesLookup k' = Lookup.get c.ResponsesLookup k') ∧
    (Call c k).ret = c.function k := by
  have h : Inv c := (consistent_iff_inv c).mp hc
  have hnf : ¬ Len c.ResponsesList ≥ c.size := not_le.mpr hlt
  have hlist := Call_miss_list h hmiss
  rw [if_neg hnf] at hlist
  have he : evict c = c := by unfold evict; rw [if_neg hnf]
  have hidx : (Call c k).cache.ResponsesLookup =
      Lookup.assign c.ResponsesLookup k ⟨c.nextAddr, ⟨k, c.function k⟩⟩ := by
    have h1 : (Call c k).cache = addEntry (evict c) k (c.function k) := by
      unfold Call; rw [hmiss]
    rw [h1, he]; rfl
  refine ⟨hlist, by rw [hlist, List.length_cons], ?_, ?_, ?_⟩
  · rw [hidx, get_assign_self]
  · intro k' hk'
    rw [hidx, get_assign_ne _ _ hk']
  · unfold Call; rw [hmiss]

/-- Witness of `miss_below_capacity`: capacity 3 holding the keys 1 and 2, and
a miss on key 3. -/
theorem miss_below_capacity_witness :
    Consistent (run (New 3 factorial) [1, 2]) ∧
    Len (run (New 3 factorial) [1, 2]).ResponsesList < (run (New 3 factorial) [1, 2]).size ∧
    (Call (run (New 3 factorial) [1, 2]) 3).cache.ResponsesList
      = ⟨2, ⟨3, 6⟩⟩ :: (run (New 3 factorial) [1, 2]).ResponsesList :=
  have h := miss_below_capacity (run (New 3 factorial) [1, 2]) 3
    (by decide) (by decide) (by decide)
  ⟨by decide, by decide, h.1⟩

/-! ## Distinct keys -/

theorem listKeys_nodup {c : Cache} (h : Inv c) : (listKeys c).Nodup := by
  unfold listKeys
  have hl : c.ResponsesList.Nodup := List.Nodup.of_map _ h.addr_nodup
  refine List.Nodup.map_on ?_ hl
  intro x hx y hy hxy
  have h1 := h.linked_get x hx
  have h2 := h.linked_get y hy
  rw [hxy, h2] at h1
  exact (Option.some.inj h1).symm

theorem keys_perm_listKeys {c : Cache} (h : Inv c) :
    List.Perm (Lookup.keys c.ResponsesLookup) (listKeys c) := by
  rw [List.perm_ext_iff_of_nodup h.keys_nodup (listKeys_nodup h)]
  exact inv_keys_iff h

/-- C16 (no duplicate keys): in every state reached from `New size f` by a
sequential series of calls, the keys of the entries of the recency list are
pairwise distinct, and the length of the list is the number of keys of the
index (the index binds each of its keys once). -/
theorem keys_distinct (size : Int) (f : Nat → Nat) (ks : List Nat) :
    (listKeys (run (New size f) ks)).Nodup ∧
    (Lookup.keys (run (New size f) ks).ResponsesLookup).Nodup ∧
    (run (New size f) ks).ResponsesList.length
      = (Lookup.keys (run (New size f) ks).ResponsesLookup).length ∧
    (run (New size f) ks).ResponsesList.length
      = (Lookup.keys (run (New size f) ks).ResponsesLookup).toFinset.card := by
  have h : Inv (run (New size f) ks) := inv_run (inv_New size f) ks
  have hlen : (run (New size f) ks).ResponsesList.length
      = (Lookup.keys (run (New size f) ks).ResponsesLookup).length := by
    rw [(keys_perm_listKeys h).length_eq, length_listKeys]
  refine ⟨listKeys_nodup h, h.keys_nodup, hlen, ?_⟩
  rw [List.toFinset_card_of_nodup h.keys_nodup, hlen]

/-! ## Hits and the order of the list -/

theorem Remove_eq_filter_ne {l : List Element} {el : Element}
    (hn : (l.map Element.addr).Nodup) (hel : el ∈ l) :
    Remove l el = l.filter (fun x => decide (x ≠ el)) := by
  unfold Remove
  apply List.filter_congr
  intro x hx
  by_cases hxe : x = el
  · subst hxe; simp
  · have : x.addr ≠ el.addr := fun ha => hxe (addr_inj hn hx hel ha)
    simp [hxe, this]

/-- C17 (move-to-front keeps the rest in order): in a consistent state where
the key `K` is cached, bound to the element `el`, after the hit `Call K` the
recency list is `el` followed by all the other elements of the old list, in
their previous order; the index is unchanged. -/
theorem hit_keeps_order (c : Cache) (K : Nat) (el : Element) (hc : Consistent c)
    (hK : Lookup.get c.ResponsesLookup K = some el) :
    (Call c K).cache.ResponsesList
      = el :: c.ResponsesList.filter (fun x => decide (x ≠ el)) ∧
    el ∈ c.ResponsesList ∧
    el.Value.Key = K ∧
    (Call c K).cache.ResponsesLookup = c.ResponsesLookup := by
  have h : Inv c := (consistent_iff_inv c).mp hc
  obtain ⟨hel, hkey⟩ := h.get_linked K el hK
  refine ⟨?_, hel, hkey, by rw [Call_hit_cache hK]⟩
  rw [Call_hit_list h hK, Remove_eq_filter_ne h.addr_nodup hel]

/-- Witness of `hit_keeps_order`: capacity 3 holding the keys 3, 2, 1 (front
to back); the hit on key 1 gives the order 1, 3, 2. -/
theorem hit_keeps_order_witness :
    Consistent (run (New 3 factorial) [1, 2, 3]) ∧
    Lookup.get (run (New 3 factorial) [1, 2, 3]).ResponsesLookup 1 = some ⟨0, ⟨1, 1⟩⟩ ∧
    (Call (run (New 3 factorial) [1, 2, 3]) 1).cache.ResponsesList
      = [⟨0, ⟨1, 1⟩⟩, ⟨2, ⟨3, 6⟩⟩, ⟨1, ⟨2, 2⟩⟩] :=
  have h := hit_keeps_order (run (New 3 factorial) [1, 2, 3]) 1 ⟨0, ⟨1, 1⟩⟩
    (by decide) (by decide)
  ⟨by decide, by decide, h.1⟩

/-! ## Calling the same key twice -/

theorem Call_hit_ret {c : Cache} {a : Nat} {el : Element}
    (hg : Lookup.get c.ResponsesLookup a = some el) : (Call c a).ret = el.Value.Value := by
  unfold Call; rw [hg]

theorem Call_front_bound {c : Cache} (h : Inv c) (k : Nat) :
    ∃ el t, (Call c k).cache.ResponsesList = el :: t ∧
      Lookup.get (Call c k).cache.ResponsesLookup k = some el ∧
      el.Value.Value = (Call c k).ret := by
  cases hg : Lookup.get c.ResponsesLookup k with
  | some el =>
    refine ⟨el, Remove c.ResponsesList el, Call_hit_list h hg, ?_, ?_⟩
    · rw [Call_hit_cache hg]; exact hg
    · unfold Call; rw [hg]
  | none =>
    have h1 : (Call c k).cache = addEntry (evict c) k (c.function k) := by
      unfold Call; rw [hg]
    refine ⟨⟨(evict c).nextAddr, ⟨k, c.function k⟩⟩, (evict c).ResponsesList, ?_, ?_, ?_⟩
    · rw [h1]; rfl
    · rw [h1]
      show Lookup.get (Lookup.assign _ k _) k = _
      rw [get_assign_self]
      rfl
    · unfold Call; rw [hg]

theorem MoveToFront_front {el : Element} {t : List Element}
    (hn : ((el :: t).map Element.addr).Nodup) : MoveToFront (el :: t) el = el :: t := by
  rw [List.map_cons, List.nodup_cons] at hn
  have h1 : Remove (el :: t) el = Remove t el := by simp [Remove]
  rw [MoveToFront, linked_of_mem (List.mem_cons_self _ _), if_pos rfl, h1,
    Remove_of_not_mem hn.1]

theorem Call_twice {c : Cache} (h : Inv c) (k : Nat) :
    (Call (Call c k).cache k).cache = (Call c k).cache ∧
    (Lookup.get (Call c k).cache.ResponsesLookup k).isSome = true ∧
    (Call (Call c k).cache k).invoked = [] ∧
    (Call (Call c k).cache k).ret = (Call c k).ret := by
  obtain ⟨el, t, hl, hg, hv⟩ := Call_front_bound h k
  have h' : Inv (Call c k).cache := inv_Call h k
  have hn := h'.addr_nodup
  rw [hl] at hn
  refine ⟨?_, by rw [hg]; rfl, by rw [invoked_eq, hg]; rfl, ?_⟩
  · rw [Call_hit_cache hg, hl, MoveToFront_front hn, ← hl]
  · rw [Call_hit_ret hg, hv]

/-- C18 (an immediate repeat changes nothing): in every state reached from
`New size f` by a sequential series of calls, for every size and key `k`,
calling `Call k` twice in a row leaves the same list and index (the same
cache) as calling it once, and the second call is a hit (`k` is found in the
index, the function is not invoked) that returns the value of the first. -/
theorem repeat_is_noop (size : Int) (f : Nat → Nat) (ks : List Nat) (k : Nat) :
    (run (New size f) (ks ++ [k, k])).ResponsesList
      = (run (New size f) (ks ++ [k])).ResponsesList ∧
    (run (New size f) (ks ++ [k, k])).ResponsesLookup
      = (run (New size f) (ks ++ [k])).ResponsesLookup ∧
    (Call (Call (run (New size f) ks) k).cache k).cache = (Call (run (New size f) ks) k).cache ∧
    (Lookup.get (Call (run (New size f) ks) k).cache.ResponsesLookup k).isSome = true ∧
    (Call (Call (run (New size f) ks) k).cache k).invoked = [] ∧
    (Call (Call (run (New size f) ks) k).cache k).ret = (Call (run (New size f) ks) k).ret := by
  have h : Inv (run (New size f) ks) := inv_run (inv_New size f) ks
  obtain ⟨h1, h2, h3, h4⟩ := Call_twice h k
  have e2 : run (New size f) (ks ++ [k, k])
      = (Call (Call (run (New size f) ks) k).cache k).cache := by
    have : ks ++ [k, k] = (ks ++ [k]) ++ [k] := by simp
    rw [this, run_snoc, run_snoc]
  refine ⟨by rw [e2, run_snoc, h1], by rw [e2, run_snoc, h1], h1, h2, h3, h4⟩

/-! ## Sizes of at most one -/

theorem evict_small {c : Cache} (hs : c.size ≤ 1) :
    evict c =
      match Back c.ResponsesList with
      | some el =>
        { c with
          ResponsesLookup := Lookup.delete c.ResponsesLookup el.Value.Key
          ResponsesList := Remove c.ResponsesList el }
      | none => c := by
  unfold evict
  cases hb : Back c.ResponsesList with
  | none => simp
  | some b =>
    have hne : c.ResponsesList ≠ [] := by
      intro h0
      rw [h0] at hb
      cases hb
    have hpos : 0 < c.ResponsesList.length := List.length_pos.mpr hne
    have hfull : Len c.ResponsesList ≥ c.size := by
      unfold Len; omega
    rw [if_pos hfull]

theorem evict_resize {c : Cache} (s : Int) (hc : c.size ≤ 1) (hs : s ≤ 1) :
    evict { c with size := s } = { evict c with size := s } := by
  have h1 : ({ c with size := s } : Cache).size ≤ 1 := hs
  rw [evict_small h1, evict_small hc]
  show (match Back c.ResponsesList with
    | some el => _
    | none => _) = _
  cases Back c.ResponsesList <;> rfl

theorem Call_miss_eq {c : Cache} {a : Nat} (hg : Lookup.get c.ResponsesLookup a = none) :
    Call c a =
      { ret := c.function a, cache := addEntry (evict c) a (c.function a), invoked := [a] } := by
  unfold Call; rw [hg]

theorem Call_resize {c : Cache} (s : Int) (hc : c.size ≤ 1) (hs : s ≤ 1) (k : Nat) :
    (Call { c with size := s } k).cache = { (Call c k).cache with size := s } ∧
    (Call { c with size := s } k).ret = (Call c k).ret ∧
    (Call { c with size := s } k).invoked = (Call c k).invoked := by
  cases hg : Lookup.get c.ResponsesLookup k with
  | some el =>
    have hg' : Lookup.get ({ c with size := s } : Cache).ResponsesLookup k = some el := hg
    refine ⟨?_, ?_, ?_⟩
    · rw [Call_hit_cache hg', Call_hit_cache hg]
    · rw [Call_hit_ret hg', Call_hit_ret hg]
    · rw [invoked_eq, invoked_eq, hg']
  | none =>
    have hg' : Lookup.get ({ c with size := s } : Cache).ResponsesLookup k = none := hg
    rw [Call_miss_eq hg', Call_miss_eq hg]
    refine ⟨?_, rfl, rfl⟩
    show addEntry (evict { c with size := s }) k (c.function k) = _
    rw [evict_resize s hc hs]
    rfl

theorem run_resize {c : Cache} (s : Int) (hc : c.size ≤ 1) (hs : s ≤ 1) (ks : List Nat) :
    run { c with size := s } ks = { run c ks with size := s } ∧
    returns { c with size := s } ks = returns c ks ∧
    hitPattern { c with size := s } ks = hitPattern c ks ∧
    misses { c with size := s } ks = misses c ks := by
  induction ks generalizing c with
  | nil => exact ⟨rfl, rfl, rfl, rfl⟩
  | cons k ks ih =>
    obtain ⟨h1, h2, h3⟩ := Call_resize s hc hs k
    have hc' : (Call c k).cache.size ≤ 1 := by rw [Call_size]; exact hc
    obtain ⟨i1, i2, i3, i4⟩ := ih hc'
    refine ⟨?_, ?_, ?_, ?_⟩
    · rw [run_cons, run_cons, h1, i1]
    · show (Call { c with size := s } k).ret :: returns (Call { c with size := s } k).cache ks
        = (Call c k).ret :: returns (Call c k).cache ks
      rw [h1, h2, i2]
    · show (Lookup.get c.ResponsesLookup k).isSome ::
          hitPattern (Call { c with size := s } k).cache ks
        = (Lookup.get c.ResponsesLookup k).isSome :: hitPattern (Call c k).cache ks
      rw [h1, i3]
    · show (Call { c with size := s } k).invoked ++ misses (Call { c with size := s } k).cache ks
        = (Call c k).invoked ++ misses (Call c k).cache ks
      rw [h1, h3, i4]

/-- C15 (sizes of at most 1 behave as size 1): for every size of at most 1,
zero and negative sizes included, every function and every sequence of keys,
the calls on `New size f` return the same values, show the same hit/miss
pattern and invoke the function on the same keys as the calls on `New 1 f`,
and leave the same recency list and the same index; after the first call, and
after every later one, the list holds exactly one entry. -/
theorem small_size_as_one (size : Int) (f : Nat → Nat) (ks : List Nat) (k0 : Nat)
    (hs : size ≤ 1) :
    returns (New size f) ks = returns (New 1 f) ks ∧
    hitPattern (New size f) ks = hitPattern (New 1 f) ks ∧
    misses (New size f) ks = misses (New 1 f) ks ∧
    (run (New size f) ks).ResponsesList = (run (New 1 f) ks).ResponsesList ∧
    (run (New size f) ks).ResponsesLookup = (run (New 1 f) ks).ResponsesLookup ∧
    (run (New size f) (k0 :: ks)).ResponsesList.length = 1 := by
  have h1 : (New 1 f).size ≤ 1 := le_refl _
  obtain ⟨r1, r2, r3, r4⟩ := run_resize size h1 hs ks
  have hN : ({ New 1 f with size := size } : Cache) = New size f := rfl
  rw [hN] at r1 r2 r3 r4
  refine ⟨r2, r3, r4, by rw [r1], by rw [r1], ?_⟩
  rw [← length_listKeys, listKeys_run_small size f hs (k0 :: ks)]
  cases hq : (k0 :: ks).getLast? with
  | none => simp at hq
  | some q => rfl

/-- Witness of `small_size_as_one`: size -3 with the keys 1, 2, 2, 3. -/
theorem small_size_as_one_witness :
    (-3 : Int) ≤ 1 ∧
    returns (New (-3) factorial) [1, 2, 2, 3] = returns (New 1 factorial) [1, 2, 2, 3] ∧
    (run (New (-3) factorial) [1, 2, 2, 3]).ResponsesList
      = (run (New 1 factorial) [1, 2, 2, 3]).ResponsesList :=
  have h := small_size_as_one (-3) factorial [1, 2, 2, 3] 1 (by decide)
  ⟨by decide, h.1, h.2.2.2.1⟩

/-! ## The LRU reference -/

theorem mem_firstOccurrences {l : List Nat} {x : Nat} : x ∈ firstOccurrences l ↔ x ∈ l := by
  induction l with
  | nil => simp [firstOccurrences]
  | cons k ks ih =>
    simp only [firstOccurrences, List.mem_cons, List.mem_filter, decide_eq_true_eq, ih]
    constructor
    · rintro (h | ⟨h, _⟩)
      · exact Or.inl h
      · exact Or.inr h
    · intro h
      by_cases hx : x = k
      · exact Or.inl hx
      · rcases h with h | h
        · exact Or.inl h
        · exact Or.inr ⟨h, hx⟩

theorem firstOccurrences_nodup (l : List Nat) : (firstOccurrences l).Nodup := by
  induction l with
  | nil => simp [firstOccurrences]
  | cons k ks ih =>
    simp only [firstOccurrences, List.nodup_cons]
    refine ⟨?_, ih.filter _⟩
    simp [List.mem_filter]

theorem firstOccurrences_reverse_snoc (ks : List Nat) (k : Nat) :
    firstOccurrences (ks ++ [k]).reverse
      = k :: (firstOccurrences ks.reverse).filter (fun q => decide (q ≠ k)) := by
  rw [List.reverse_append]
  rfl

theorem take_filter_of_not_mem {k : Nat} (R : List Nat) (n : Nat) (h : k ∉ R.take n) :
    (R.filter (fun q => decide (q ≠ k))).take n = R.take n := by
  induction R generalizing n with
  | nil => rfl
  | cons x R ih =>
    cases n with
    | zero => simp
    | succ m =>
      rw [List.take_succ_cons, List.mem_cons, not_or] at h
      have hx : x ≠ k := fun e => h.1 e.symm
      have hf : (x :: R).filter (fun q => decide (q ≠ k))
          = x :: R.filter (fun q => decide (q ≠ k)) := by
        simp [List.filter_cons, hx]
      rw [hf, List.take_succ_cons, List.take_succ_cons, ih m h.2]

theorem filter_ne_of_not_mem {k : Nat} {R : List Nat} (h : k ∉ R) :
    R.filter (fun q => decide (q ≠ k)) = R := by
  rw [List.filter_eq_self]
  intro x hx
  simp only [decide_eq_true_eq]
  rintro rfl
  exact h hx

theorem filter_take_of_mem {k : Nat} (R : List Nat) (n : Nat) (hR : R.Nodup)
    (h : k ∈ R.take n) :
    (R.take n).filter (fun q => decide (q ≠ k))
      = (R.filter (fun q => decide (q ≠ k))).take (n - 1) := by
  induction R generalizing n with
  | nil => simp at h
  | cons x R ih =>
    cases n with
    | zero => simp at h
    | succ m =>
      rw [List.nodup_cons] at hR
      rw [List.take_succ_cons] at h ⊢
      by_cases hx : x = k
      · subst hx
        have hnt : x ∉ R.take m := fun hm => hR.1 (List.mem_of_mem_take hm)
        have h1 : (x :: R.take m).filter (fun q => decide (q ≠ x)) = R.take m := by
          simp only [List.filter_cons, ne_eq, not_true_eq_false, decide_False]
          exact filter_ne_of_not_mem hnt
        have h2 : (x :: R).filter (fun q => decide (q ≠ x)) = R := by
          simp only [List.filter_cons, ne_eq, not_true_eq_false, decide_False]
          exact filter_ne_of_not_mem hR.1
        rw [h1, h2]
        rfl
      · have hk : k ∈ R.take m := by
          rcases List.mem_cons.mp h with e | e
          · exact absurd e.symm hx
          · exact e
        have hm : 0 < m := by
          cases m with
          | zero => simp at hk
          | succ j => exact Nat.succ_pos j
        have h1 : (x :: R.take m).filter (fun q => decide (q ≠ k))
            = x :: (R.take m).filter (fun q => decide (q ≠ k)) := by
          simp [List.filter_cons, hx]
        have h2 : (x :: R).filter (fun q => decide (q ≠ k))
            = x :: R.filter (fun q => decide (q ≠ k)) := by
          simp [List.filter_cons, hx]
        rw [h1, h2, ih m hR.2 hk]
        obtain ⟨j, rfl⟩ : ∃ j, m = j + 1 := ⟨m - 1, by omega⟩
        rfl

/-- One call on the level of key lists: what `Call k` does to the keys of the
recency list of a cache of capacity `n`. -/
theorem take_reference_step (n : Nat) (hn : 1 ≤ n) (R : List Nat) (hR : R.Nodup) (k : Nat) :
    (k :: R.filter (fun q => decide (q ≠ k))).take n =
      if k ∈ R.take n then k :: (R.take n).filter (fun q => decide (q ≠ k))
      else k :: (if (R.take n).length ≥ n then (R.take n).dropLast else R.take n) := by
  obtain ⟨m, rfl⟩ : ∃ m, n = m + 1 := ⟨n - 1, by omega⟩
  rw [List.take_succ_cons]
  by_cases hk : k ∈ R.take (m + 1)
  · rw [if_pos hk, filter_take_of_mem R (m + 1) hR hk]
    rfl
  · rw [if_neg hk]
    have h1 : (R.filter (fun q => decide (q ≠ k))).take m = R.take m := by
      have := take_filter_of_not_mem R (m + 1) hk
      have h2 := congrArg (List.take m) this
      rwa [List.take_take, List.take_take, Nat.min_eq_left (Nat.le_succ m)] at h2
    rw [h1]
    by_cases hl : (R.take (m + 1)).length ≥ m + 1
    · rw [if_pos hl]
      have hlen : (R.take (m + 1)).length = m + 1 :=
        le_antisymm (List.length_take_le _ _) hl
      rw [List.dropLast_eq_take, hlen, List.take_take]
      simp
    · rw [if_neg hl]
      have hlen : R.length ≤ m := by
        rw [List.length_take] at hl
        omega
      rw [List.take_of_length_le hlen, List.take_of_length_le (Nat.le_succ_of_le hlen)]

theorem listKeys_Call_hit {c : Cache} (h : Inv c) {k : Nat} {el : Element}
    (hg : Lookup.get c.ResponsesLookup k = some el) :
    listKeys (Call c k).cache = k :: (listKeys c).filter (fun q => decide (q ≠ k)) := by
  obtain ⟨hel, hkey⟩ := h.get_linked k el hg
  unfold listKeys
  rw [Call_hit_list h hg, List.map_cons, hkey, List.filter_map]
  congr 2
  unfold Remove
  apply List.filter_congr
  intro x hx
  by_cases hxe : x = el
  · subst hxe
    simp [hkey]
  · have h1 : x.addr ≠ el.addr := fun ha => hxe (addr_inj h.addr_nodup hx hel ha)
    have h2 : x.Value.Key ≠ k := by
      intro hk
      have := h.linked_get x hx
      rw [hk, hg] at this
      exact hxe (Option.some.inj this).symm
    simp [h1, h2]

theorem listKeys_run_reference (n : Nat) (hn : 1 ≤ n) (f : Nat → Nat) (ks : List Nat) :
    listKeys (run (New (n : Int) f) ks) = lruReference n ks := by
  induction ks using List.reverseRecOn with
  | nil => simp [run, New, listKeys, lruReference, firstOccurrences]
  | append_singleton ks k ih =>
    have hi : Inv (run (New (n : Int) f) ks) := inv_run (inv_New _ f) ks
    unfold lruReference at ih ⊢
    rw [firstOccurrences_reverse_snoc,
      take_reference_step n hn _ (firstOccurrences_nodup _) k, ← ih, run_snoc]
    cases hg : Lookup.get (run (New (n : Int) f) ks).ResponsesLookup k with
    | some el =>
      have hk : k ∈ listKeys (run (New (n : Int) f) ks) :=
        (inv_keys_iff hi k).mp (mem_keys_iff.mpr ⟨el, hg⟩)
      rw [if_pos hk, listKeys_Call_hit hi hg]
    | none =>
      have hk : k ∉ listKeys (run (New (n : Int) f) ks) := by
        rw [← inv_keys_iff hi k]
        exact get_none_iff.mp hg
      rw [if_neg hk, listKeys_Call_miss hi hg, run_size]
      have hiff : Len (run (New (n : Int) f) ks).ResponsesList ≥ (New (n : Int) f).size ↔
          (listKeys (run (New (n : Int) f) ks)).length ≥ n := by
        rw [length_listKeys]
        show ((run (New (n : Int) f) ks).ResponsesList.length : Int) ≥ (n : Int) ↔ _
        omega
      by_cases hfull : (listKeys (run (New (n : Int) f) ks)).length ≥ n
      · rw [if_pos hfull, if_pos (hiff.mpr hfull)]
      · rw [if_neg hfull, if_neg (fun h => hfull (hiff.mp h))]

/-- C14 (LRU reference model): for every capacity `c` of at least 1 and every
sequence of keys called in order on `New c f`, the keys of the recency list,
read front to back, are the first `c` elements of the list obtained by
reversing the sequence and keeping only the first occurrence of each key: the
cache holds the `c` most recently used distinct keys, most recent first. -/
theorem list_is_lru_reference (c : Int) (f : Nat → Nat) (ks : List Nat) (hc : 1 ≤ c) :
    listKeys (run (New c f) ks) = lruReference c.toNat ks ∧
    listKeys (run (New c f) ks) = (firstOccurrences ks.reverse).take c.toNat := by
  have hcn : ((c.toNat : Nat) : Int) = c := Int.toNat_of_nonneg (by omega)
  have hn : 1 ≤ c.toNat := by omega
  have h := listKeys_run_reference c.toNat hn f ks
  rw [hcn] at h
  exact ⟨h, h⟩

/-- Witness of `list_is_lru_reference`: capacity 3 and the keys
1, 2, 3, 1, 4, 2, 2, 5, 1, 3 leave the keys 3, 1, 5 in the list. -/
theorem list_is_lru_reference_witness :
    (1 : Int) ≤ 3 ∧
    lruReference 3 [1, 2, 3, 1, 4, 2, 2, 5, 1, 3] = [3, 1, 5] ∧
    listKeys (run (New 3 factorial) [1, 2, 3, 1, 4, 2, 2, 5, 1, 3]) = [3, 1, 5] :=
  have h := list_is_lru_reference 3 factorial [1, 2, 3, 1, 4, 2, 2, 5, 1, 3] (by decide)
  ⟨by decide, by decide, h.1.trans (by decide)⟩

/-! ## The wrapped function and the call -/

theorem evict_refunction (c : Cache) (g : Nat → Nat) :
    evict { c with function := g } = { evict c with function := g } := by
  unfold evict
  show (if Len c.ResponsesList ≥ c.size then _ else _) = _
  by_cases hfull : Len c.ResponsesList ≥ c.size
  · rw [if_pos hfull, if_pos hfull]
    show (match Back c.ResponsesList with
      | some el => _
      | none => _) = _
    cases Back c.ResponsesList <;> rfl
  · rw [if_neg hfull, if_neg hfull]

theorem Call_hit_refunction {c : Cache} {k : Nat} {el : Element}
    (hg : Lookup.get c.ResponsesLookup k = some el) (g : Nat → Nat) :
    (Call { c with function := g } k).ret = (Call c k).ret ∧
    (Call { c with function := g } k).cache = { (Call c k).cache with function := g } := by
  have hg' : Lookup.get ({ c with function := g } : Cache).ResponsesLookup k = some el := hg
  exact ⟨by rw [Call_hit_ret hg', Call_hit_ret hg],
    by rw [Call_hit_cache hg', Call_hit_cache hg]⟩

theorem Call_miss_refunction {c : Cache} {k : Nat}
    (hg : Lookup.get c.ResponsesLookup k = none) (g : Nat → Nat) (hk : g k = c.function k) :
    (Call { c with function := g } k).ret = (Call c k).ret ∧
    (Call { c with function := g } k).cache = { (Call c k).cache with function := g } := by
  have hg' : Lookup.get ({ c with function := g } : Cache).ResponsesLookup k = none := hg
  rw [Call_miss_eq hg', Call_miss_eq hg]
  refine ⟨hk, ?_⟩
  show addEntry (evict { c with function := g }) k (g k) = _
  rw [evict_refunction, hk]
  rfl

theorem Call_miss_bound {c : Cache} {k : Nat}
    (hg : Lookup.get c.ResponsesLookup k = none) :
    Lookup.get (Call c k).cache.ResponsesLookup k
      = some ⟨c.nextAddr, ⟨k, c.function k⟩⟩ := by
  rw [Call_miss_eq hg]
  show Lookup.get (Lookup.assign _ k ⟨(evict c).nextAddr, ⟨k, c.function k⟩⟩) k = _
  rw [get_assign_self, evict_nextAddr]

/-- C2 (invocation count): in any state, `Call k` invokes the wrapped function
not at all when `k` is present in the index, and exactly once, with argument
`k`, when `k` is absent; no other argument is ever passed.  On a hit the
recorded invocations are none, and the value returned (the stored one) and the
cache left behind are the same whatever function the cache wraps.  On a miss
the recorded invocation is the one on `k`, the value returned and the value
stored under `k` are the function's value at `k`, and the value returned and
the cache left behind are the same for every wrapped function with that value
at `k`, whatever its values at other arguments. -/
theorem Call_invoked (c : Cache) (k : Nat) :
    (∀ el, Lookup.get c.ResponsesLookup k = some el →
      (Call c k).invoked = [] ∧
      (Call c k).ret = el.Value.Value ∧
      ∀ g : Nat → Nat,
        (Call { c with function := g } k).ret = (Call c k).ret ∧
        (Call { c with function := g } k).cache = { (Call c k).cache with function := g }) ∧
    (Lookup.get c.ResponsesLookup k = none →
      (Call c k).invoked = [k] ∧
      (Call c k).ret = c.function k ∧
      Lookup.get (Call c k).cache.ResponsesLookup k
        = some ⟨c.nextAddr, ⟨k, c.function k⟩⟩ ∧
      ∀ g : Nat → Nat, g k = c.function k →
        (Call { c with function := g } k).ret = (Call c k).ret ∧
        (Call { c with function := g } k).cache = { (Call c k).cache with function := g }) := by
  constructor
  · intro el hg
    refine ⟨by rw [invoked_eq, hg]; rfl, Call_hit_ret hg, Call_hit_refunction hg⟩
  · intro hg
    refine ⟨by rw [invoked_eq, hg]; rfl, by rw [Call_miss_eq hg], Call_miss_bound hg,
      Call_miss_refunction hg⟩

/-- Witness of `Call_invoked`: in the cache of capacity 2 holding the keys 1
and 2, the call on 1 is a hit that invokes nothing and returns the stored 1
also when the wrapped function is replaced by the constant 7, and the call on
3 is a miss that invokes the function on 3 and returns its value 6. -/
theorem Call_invoked_witness :
    Lookup.get (run (New 2 factorial) [1, 2]).ResponsesLookup 1 = some ⟨0, ⟨1, 1⟩⟩ ∧
    (Call (run (New 2 factorial) [1, 2]) 1).invoked = [] ∧
    (Call { run (New 2 factorial) [1, 2] with function := fun _ => 7 } 1).ret = 1 ∧
    Lookup.get (run (New 2 factorial) [1, 2]).ResponsesLookup 3 = none ∧
    (Call (run (New 2 factorial) [1, 2]) 3).invoked = [3] ∧
    (Call (run (New 2 factorial) [1, 2]) 3).ret = 6 :=
  have hhit := (Call_invoked (run (New 2 factorial) [1, 2]) 1).1 ⟨0, ⟨1, 1⟩⟩ (by decide)
  have hmiss := (Call_invoked (run (New 2 factorial) [1, 2]) 3).2 (by decide)
  ⟨by decide, hhit.1, ((hhit.2.2 (fun _ => 7)).1).trans hhit.2.1, by decide, hmiss.1,
    hmiss.2.1.trans (by decide)⟩

/-! ## The bound on the length -/

/-- C4 (bounded size), amended: for every capacity of at least 1, in every
state reached from `New size f` by a sequential series of calls (so also in
those reached after at least `size` distinct-key misses), the length of the
recency list does not exceed the capacity; for a capacity of 0 or below the
list holds exactly one entry after the first call and after every later
one. -/
theorem length_le_capacity (size : Int) (f : Nat → Nat) (ks : List Nat) (k0 : Nat) :
    (1 ≤ size → Len (run (New size f) ks).ResponsesList ≤ size) ∧
    (size ≤ 0 → (run (New size f) (k0 :: ks)).ResponsesList.length = 1) := by
  constructor
  · intro h
    have := length_reachable_le size f ks
    rwa [max_eq_left h] at this
  · intro h
    have hs : size ≤ 1 := le_trans h (by decide)
    rw [← length_listKeys, listKeys_run_small size f hs (k0 :: ks)]
    cases hq : (k0 :: ks).getLast? with
    | none => simp at hq
    | some q => rfl

/-- Witness of `length_le_capacity`: capacity 2 with the keys 1, 2, 3, 1, and
capacity 0 with the keys 1, 2, 2, 3. -/
theorem length_le_capacity_witness :
    (1 : Int) ≤ 2 ∧ Len (run (New 2 factorial) [1, 2, 3, 1]).ResponsesList ≤ 2 ∧
    (0 : Int) ≤ 0 ∧ (run (New 0 factorial) [1, 2, 2, 3]).ResponsesList.length = 1 :=
  ⟨by decide, (length_le_capacity 2 factorial [1, 2, 3, 1] 0).1 (by decide),
    by decide, (length_le_capacity 0 factorial [2, 2, 3] 1).2 (by decide)⟩

end lrucache
